import Mathlib

/-
  Verification development for the pactum / pycontractz design-by-contract
  engine.  The Python sources are shallowly embedded below: pure functions
  become Lean functions, Python dicts become association lists with
  first-match lookup, the Python exception mechanism becomes `Except PyError`,
  and the mutable object store (needed for `copy.deepcopy` semantics) becomes
  an explicit heap that is threaded through the functions that can allocate
  or mutate.
-/

set_option maxHeartbeats 1000000

namespace Pactum

/-- Python exceptions that the embedded code can raise.  `raised` stands for
an arbitrary exception raised by user code (a predicate or a handler). -/
inductive PyError where
  | typeError : String → PyError
  | valueError : String → PyError
  | attributeError : String → PyError
  | raised : String → PyError
deriving Repr, DecidableEq

/-- Embedding of `inspect.Parameter.kind` (see
`src/pycontractz/_utils/_map_function_arguments.py` and `_predicate.py`):
POSITIONAL_ONLY, POSITIONAL_OR_KEYWORD, KEYWORD_ONLY, VAR_POSITIONAL,
VAR_KEYWORD. -/
inductive ParamKind where
  | positionalOnly
  | positionalOrKeyword
  | keywordOnly
  | varPositional
  | varKeyword
deriving Repr, DecidableEq

/-- Embedding of one `inspect.Parameter` of a declared signature: its name,
its binding kind, and whether a default value is declared
(`param.default != Parameter.empty`). -/
structure Param where
  name : String
  kind : ParamKind
  hasDefault : Bool
deriving Repr, DecidableEq

/-- Python runtime values, as far as the contract engine inspects them:
integers (standing for arbitrary immutable atoms), immutable tuples (the
mapper binds `args[i:]` to a VAR_POSITIONAL parameter), string-keyed dicts
(the mapper binds the unclaimed keyword arguments to a VAR_KEYWORD
parameter), and references into the mutable-object heap (used to give
`copy.deepcopy` and mutation their meaning). -/
inductive PyVal where
  | int : Int → PyVal
  | tup : List PyVal → PyVal
  | strdict : List (String × PyVal) → PyVal
  | ref : Nat → PyVal

/-- Lookup in a Python dict modelled as an association list (first match). -/
def dictLookup (d : List (String × α)) (k : String) : Option α :=
  (d.find? (fun kv => kv.1 = k)).map (fun kv => kv.2)

/-- Membership test `k in d` for a Python dict. -/
def dictContains (d : List (String × α)) (k : String) : Bool :=
  d.any (fun kv => kv.1 = k)

/-- Assignment `d[k] = v` for a Python dict: overwrites the value in place
at the first (in a Python dict: the only) occurrence of the key when it
exists, appends otherwise. -/
def dictInsert : List (String × α) → String → α → List (String × α)
  | [], k, v => [(k, v)]
  | kv :: rest, k, v =>
      if kv.1 = k then (k, v) :: rest else kv :: dictInsert rest k v

/-- Python dict union `a | b` (entries of `b` override entries of `a`). -/
def dictUnion (a b : List (String × α)) : List (String × α) :=
  b.foldl (fun acc kv => dictInsert acc kv.1 kv.2) a

/-- Key list of a Python dict. -/
def dictKeys (d : List (String × α)) : List String :=
  d.map (fun kv => kv.1)

/-- Errors that the per-parameter body of `map_function_arguments` can raise
and that its `except (KeyError, IndexError)` clause catches. -/
inductive LookupErr where
  | keyError
  | indexError
deriving Repr, DecidableEq

/-- Loop state of `map_function_arguments`: the mapping built so far, the
next unused positional index `i`, and the `has_kwargs` flag. -/
structure MapSt where
  argsmap : List (String × PyVal)
  i : Nat
  hasKw : Bool

/-- Body of the `for name, param in signature.parameters.items()` loop of
`map_function_arguments` (src/pycontractz/_utils/_map_function_arguments.py,
lines 21 to 40), for a single parameter. -/
def mapArgsStep (args : List PyVal) (kwargs : List (String × PyVal))
    (p : Param) (st : MapSt) : Except LookupErr MapSt :=
  match p.kind with
  | .positionalOnly =>
      match args[st.i]? with
      | none => .error .indexError
      | some v =>
          .ok { st with argsmap := dictInsert st.argsmap p.name v, i := st.i + 1 }
  | .positionalOrKeyword =>
      match dictLookup kwargs p.name with
      | some v => .ok { st with argsmap := dictInsert st.argsmap p.name v }
      | none =>
          match args[st.i]? with
          | none => .error .indexError
          | some v =>
              .ok { st with argsmap := dictInsert st.argsmap p.name v,
                            i := st.i + 1 }
  | .keywordOnly =>
      match dictLookup kwargs p.name with
      | none => .error .keyError
      | some v => .ok { st with argsmap := dictInsert st.argsmap p.name v }
  | .varPositional =>
      .ok { st with
              argsmap := dictInsert st.argsmap p.name (.tup (args.drop st.i)),
              i := st.i + (args.drop st.i).length }
  | .varKeyword =>
      .ok { st with
              argsmap := dictInsert st.argsmap p.name
                (.strdict (kwargs.filter
                  (fun kv => !dictContains st.argsmap kv.1))),
              hasKw := true }

/-- The parameter loop of `map_function_arguments`: a raised KeyError or
IndexError is tolerated when the parameter has a default value (the
parameter is then simply skipped), and re-raised otherwise. -/
def mapArgsLoop (args : List PyVal) (kwargs : List (String × PyVal)) :
    List Param → MapSt → Except LookupErr MapSt
  | [], st => .ok st
  | p :: ps, st =>
      match mapArgsStep args kwargs p st with
      | .ok st' => mapArgsLoop args kwargs ps st'
      | .error e =>
          if p.hasDefault then mapArgsLoop args kwargs ps st
          else .error e

/-- Embedding of `map_function_arguments`
(src/pycontractz/_utils/_map_function_arguments.py, lines 6 to 57): run the
parameter loop from the empty mapping, wrap a propagated lookup error into a
TypeError, then perform the excess-positional and excess-keyword checks.
The original TypeError message contains an apostrophe and is paraphrased
here without one. -/
def map_function_arguments (ps : List Param) (args : List PyVal)
    (kwargs : List (String × PyVal)) : Except PyError (List (String × PyVal)) :=
  match mapArgsLoop args kwargs ps ⟨[], 0, false⟩ with
  | .error _ => .error (.typeError "Arguments do not match function signature")
  | .ok st =>
      if st.i < args.length then
        .error (.typeError "Excess positional arguments")
      else if !st.hasKw &&
          !(kwargs.all (fun kv => ps.any (fun p => p.name = kv.1))) then
        .error (.typeError "Excess keyword arguments")
      else .ok st.argsmap

/-- Specification-side walk over the declared parameters, written from the
words of spec §4.1 (for the refinement comparison with
`map_function_arguments`): the declared parameters are walked in order,
carrying the not-yet-consumed positional arguments as an explicit list and
the names bound so far.  A fixed positional parameter consumes the first
remaining positional argument; a position-or-name parameter prefers the
named argument of its name and otherwise consumes the first remaining
positional argument; a fixed-by-name parameter comes only from the named
arguments; a variadic-sequence parameter collects all remaining positional
arguments; a variadic-mapping parameter collects exactly the named
arguments whose names were not bound before it.  A parameter whose value is
missing is simply omitted from the mapping (not materialized with its
default) when it has a default, and is a hard failure otherwise; a failure
of the rest of the walk propagates.  The walk returns the mapping in
declaration order, the positional arguments left unconsumed, and whether a
variadic-mapping parameter was seen. -/
def spec_map_walk (kwargs : List (String × PyVal)) :
    List Param → List PyVal → List String →
    Except Unit (List (String × PyVal) × List PyVal × Bool)
  | [], rem, _ => .ok ([], rem, false)
  | p :: ps, rem, bound =>
      match p.kind with
      | .positionalOnly =>
          match rem with
          | v :: rem' =>
              match spec_map_walk kwargs ps rem' (bound ++ [p.name]) with
              | .error e => .error e
              | .ok (out, remF, hk) => .ok ((p.name, v) :: out, remF, hk)
          | [] =>
              if p.hasDefault then spec_map_walk kwargs ps [] bound
              else .error ()
      | .positionalOrKeyword =>
          match dictLookup kwargs p.name with
          | some v =>
              match spec_map_walk kwargs ps rem (bound ++ [p.name]) with
              | .error e => .error e
              | .ok (out, remF, hk) => .ok ((p.name, v) :: out, remF, hk)
          | none =>
              match rem with
              | v :: rem' =>
                  match spec_map_walk kwargs ps rem' (bound ++ [p.name]) with
                  | .error e => .error e
                  | .ok (out, remF, hk) => .ok ((p.name, v) :: out, remF, hk)
              | [] =>
                  if p.hasDefault then spec_map_walk kwargs ps [] bound
                  else .error ()
      | .keywordOnly =>
          match dictLookup kwargs p.name with
          | some v =>
              match spec_map_walk kwargs ps rem (bound ++ [p.name]) with
              | .error e => .error e
              | .ok (out, remF, hk) => .ok ((p.name, v) :: out, remF, hk)
          | none =>
              if p.hasDefault then spec_map_walk kwargs ps rem bound
              else .error ()
      | .varPositional =>
          match spec_map_walk kwargs ps [] (bound ++ [p.name]) with
          | .error e => .error e
          | .ok (out, remF, hk) => .ok ((p.name, .tup rem) :: out, remF, hk)
      | .varKeyword =>
          match spec_map_walk kwargs ps rem (bound ++ [p.name]) with
          | .error e => .error e
          | .ok (out, remF, _) =>
              .ok ((p.name,
                  .strdict (kwargs.filter
                    (fun kv => decide (kv.1 ∉ bound)))) :: out, remF, true)

/-- Specification-side argument mapper (the second definition of the
refinement pair): run the walk from all positional arguments and no bound
names, then apply the final checks in the spec's words, as amended — any
unconsumed positional argument is a hard failure, and any named argument
whose name is not among the declared parameter names is a hard failure
unless a variadic-mapping parameter exists. -/
def spec_map_arguments (ps : List Param) (args : List PyVal)
    (kwargs : List (String × PyVal)) :
    Except PyError (List (String × PyVal)) :=
  match spec_map_walk kwargs ps args [] with
  | .error _ => .error (.typeError "Arguments do not match function signature")
  | .ok (out, remaining, hasVarKw) =>
      match remaining with
      | _ :: _ => .error (.typeError "Excess positional arguments")
      | [] =>
          if !hasVarKw &&
              !(kwargs.all (fun kv => ps.any (fun p => p.name = kv.1))) then
            .error (.typeError "Excess keyword arguments")
          else .ok out

/-- Embedding of EvaluationSemantic
(src/pycontractz/evaluation_semantic.py, lines 4 to 10).  This enumeration —
with exactly the members ignore, observe, enforce, quick_enforce — is the
only EvaluationSemantic declared in the source tree, and it coincides with
the spec (§3).  The private module `_evaluation_semantic.py` imported by
`_utils/_assert_contract.py` is not in the tree. -/
inductive EvaluationSemantic where
  | ignore
  | observe
  | enforce
  | quick_enforce
deriving Repr, DecidableEq

/-- Modelled from the spec: the module `pycontractz/_assertion_kind.py` is
missing from the source tree.  §3 of the spec defines AssertionKind as the
enumeration of precondition, postcondition and invariant-assertion; the
callers present in the tree use the member names `pre`, `post` and
`assertion`. -/
inductive AssertionKind where
  | pre
  | post
  | assertion
deriving Repr, DecidableEq

/-- Embedding of DetectionMode (src/pycontractz/detection_mode.py, lines 4
to 9).  Note that no function in the source tree ever constructs a value of
this enumeration: the ContractViolation record built by
`_utils/_assert_contract.py` has no detection-mode field. -/
inductive DetectionMode where
  | implicit
  | predicate_false
  | evaluation_exception
deriving Repr, DecidableEq

/-- Embedding of ContractViolation (src/pycontractz/_contract_violation.py,
lines 7 to 22): the record constructed by the contract evaluator.  The
source stores an `inspect.Traceback | None`; here the location is an opaque
optional string. -/
structure ContractViolation where
  comment : String
  kind : AssertionKind
  location : Option String
  semantic : EvaluationSemantic
deriving Repr, DecidableEq

/-- A registered contract violation handler: receives the violation and
either returns or raises. -/
def Handler : Type := ContractViolation → Except PyError Unit

/-- Embedding of the attribute access `EvaluationSemantic.check` performed
at src/pycontractz/_utils/_assert_contract.py line 25.  The EvaluationSemantic
enumeration declared in the source tree (evaluation_semantic.py) has members
ignore, observe, enforce and quick_enforce only, so in Python this attribute
access raises AttributeError. -/
def evaluationSemanticCheckAttr : Except PyError EvaluationSemantic :=
  .error (.attributeError "EvaluationSemantic has no member named check")

/-- Embedding of `__handle_contract_violation`
(src/pycontractz/_utils/_assert_contract.py, lines 10 to 27): construct the
ContractViolation, then dispatch it to the registered handler when the
semantic equals `EvaluationSemantic.check`.  Returns the outcome, the
violation that was constructed, and whether the handler was invoked. -/
def handle_contract_violation (semantic : EvaluationSemantic)
    (kind : AssertionKind) (location : Option String) (comment : String)
    (handler : Handler) :
    Except PyError Unit × Option ContractViolation × Bool :=
  let violation : ContractViolation :=
    { comment := comment, kind := kind, location := location,
      semantic := semantic }
  match evaluationSemanticCheckAttr with
  | .error e => (.error e, some violation, false)
  | .ok c =>
      if semantic = c then
        match handler violation with
        | .ok _ => (.ok (), some violation, true)
        | .error e => (.error e, some violation, true)
      else (.ok (), some violation, false)

/-- Instrumentation of one evaluator run: whether the predicate callable was
invoked, whether the violation handler was invoked, and the
ContractViolation that was constructed, if any. -/
structure EvalTrace where
  predicateInvoked : Bool
  handlerInvoked : Bool
  violation : Option ContractViolation
deriving Repr, DecidableEq

/-- Embedding of `assert_contract`
(src/pycontractz/_utils/_assert_contract.py, lines 29 to 47): return
immediately under the ignore semantic, otherwise invoke the predicate (whose
raised exception, if any, propagates unhandled) and hand a falsy result to
`handle_contract_violation`.  The predicate is an opaque callable from its
keyword arguments to a truth value; Python's truthiness coercion
(`if not pred_result`) is pre-applied in the Bool it returns. -/
def assert_contract (semantic : EvaluationSemantic) (kind : AssertionKind)
    (loc : Option String)
    (predicate : List (String × PyVal) → Except PyError Bool)
    (predicate_kwargs : List (String × PyVal)) (handler : Handler) :
    Except PyError Unit × EvalTrace :=
  if semantic = .ignore then (.ok (), ⟨false, false, none⟩)
  else
    match predicate predicate_kwargs with
    | .error e => (.error e, ⟨true, false, none⟩)
    | .ok pred_result =>
        if pred_result then (.ok (), ⟨true, false, none⟩)
        else
          match handle_contract_violation semantic kind loc "" handler with
          | (res, viol, hInvoked) => (res, ⟨true, hInvoked, viol⟩)

/-- Embedding of `assert_predicate_well_formed`
(src/pycontractz/_predicate.py, lines 9 to 32): every predicate parameter
must be of kind POSITIONAL_OR_KEYWORD, must appear in the bindings, and its
bound source name must be in scope; any other parameter kind is rejected. -/
def assert_predicate_well_formed (pred_params : List (String × ParamKind))
    (bindings : List (String × String)) (variables_in_scope : List String) :
    Except PyError Unit :=
  match pred_params with
  | [] => .ok ()
  | (name, kind) :: rest =>
      match kind with
      | .positionalOrKeyword =>
          match dictLookup bindings name with
          | none =>
              .error (.typeError
                ("Predicate parameter \x22" ++ name ++ "\x22 not bound"))
          | some src =>
              if src ∈ variables_in_scope then
                assert_predicate_well_formed rest bindings variables_in_scope
              else
                .error (.typeError
                  ("Predicate parameter \x22" ++ name ++ "\x22 not in scope"))
      | _ =>
          .error (.typeError
            ("Predicate parameter \x22" ++ name ++ "\x22 is of invalid kind"))

/-- Embedding of `post.__find_result_param`
(src/pycontractz/_post.py, lines 93 to 110): the candidates are the
predicate parameters not bound by any capture or clone set; zero candidates
means no result parameter, exactly one is the result parameter, and more
than one is a TypeError whose message names all candidates.  The source
collects the candidates into a Python set built from the ordered predicate
parameters; the embedding keeps them in declaration order. -/
def find_result_param (pred_params : List String) (bindings : List String) :
    Except PyError (Option String) :=
  let candidates := pred_params.filter (fun n => !bindings.contains n)
  match candidates with
  | [] => .ok none
  | [c] => .ok (some c)
  | cs =>
      .error (.typeError
        ("Unable to determine predicate result parameter. Candidates: " ++
          String.intercalate "," cs))

/-- The mutable-object store: an association from addresses to list objects
(the representative mutable container), together with the next fresh
address.  `copy.deepcopy` allocates here; mutation overwrites an entry. -/
structure Heap where
  data : List (Nat × List PyVal)
  next : Nat

/-- Address lookup in the heap. -/
def Heap.lookup (h : Heap) (a : Nat) : Option (List PyVal) :=
  (h.data.find? (fun e => e.1 = a)).map (fun e => e.2)

/-- Update of the backing association list of the heap: overwrite in place
at the first (in a well-formed heap: the only) occurrence of the address,
append otherwise. -/
def storeData : List (Nat × List PyVal) → Nat → List PyVal →
    List (Nat × List PyVal)
  | [], a, obj => [(a, obj)]
  | e :: rest, a, obj =>
      if e.1 = a then (a, obj) :: rest else e :: storeData rest a obj

/-- Writing an object at an address: overwrites the entry when the address
is present (mutation of an existing object), appends otherwise (allocation). -/
def Heap.store (h : Heap) (a : Nat) (obj : List PyVal) : Heap :=
  { h with data := storeData h.data a obj }

/-- Well-formedness of the heap: every allocated address is below `next`. -/
def Heap.wf (h : Heap) : Prop :=
  ∀ e ∈ h.data, e.1 < h.next

mutual

/-- Embedding of `copy.deepcopy` as invoked by `resolve_bindings`
(src/pactum/_utils/_resolve_bindings.py, line 22): immutable atoms are
returned as they are, tuples and dicts are rebuilt from deep copies of their
components, and a reference to a mutable object is replaced by a reference
to a freshly allocated object holding deep copies of the contents (the
fresh address is reserved first, as the memo dictionary of the Python
implementation does).  The fuel bounds the recursion depth, standing for
the interpreter recursion limit on over-deep object graphs. -/
def deepcopy (fuel : Nat) (v : PyVal) (h : Heap) :
    Except PyError (PyVal × Heap) :=
  match fuel, v with
  | _, .int z => .ok (.int z, h)
  | fuel, .tup xs => do
      let (ys, h') ← deepcopyList fuel xs h
      .ok (.tup ys, h')
  | fuel, .strdict kvs => do
      let (kvs', h') ← deepcopyKVs fuel kvs h
      .ok (.strdict kvs', h')
  | 0, .ref _ => .error (.raised "RecursionError")
  | fuel + 1, .ref a =>
      match h.lookup a with
      | none => .error (.raised "invalid object reference")
      | some obj => do
          let b := h.next
          let h1 : Heap := { h with next := h.next + 1 }
          let (obj', h2) ← deepcopyList fuel obj h1
          .ok (.ref b, Heap.store h2 b obj')
termination_by (fuel, sizeOf v)

/-- Componentwise deep copy of the contents of a list object or tuple. -/
def deepcopyList (fuel : Nat) (xs : List PyVal) (h : Heap) :
    Except PyError (List PyVal × Heap) :=
  match xs with
  | [] => .ok ([], h)
  | x :: rest => do
      let (y, h1) ← deepcopy fuel x h
      let (ys, h2) ← deepcopyList fuel rest h1
      .ok (y :: ys, h2)
termination_by (fuel, sizeOf xs)

/-- Componentwise deep copy of the entries of a string-keyed dict. -/
def deepcopyKVs (fuel : Nat) (kvs : List (String × PyVal)) (h : Heap) :
    Except PyError (List (String × PyVal) × Heap) :=
  match kvs with
  | [] => .ok ([], h)
  | (k, x) :: rest => do
      let (y, h1) ← deepcopy fuel x h
      let (ys, h2) ← deepcopyKVs fuel rest h1
      .ok ((k, y) :: ys, h2)
termination_by (fuel, sizeOf kvs)

end

/-- Fully dereferenced (observable) values: what a predicate can see of a
binding by traversing it, with mutable list objects read out of the heap. -/
inductive AbsVal where
  | int : Int → AbsVal
  | tup : List AbsVal → AbsVal
  | strdict : List (String × AbsVal) → AbsVal
  | obj : List AbsVal → AbsVal

mutual

/-- Observation function: read a value through the heap, dereferencing
mutable objects, with a depth bound. -/
def readVal (fuel : Nat) (h : Heap) (v : PyVal) : Option AbsVal :=
  match fuel, v with
  | _, .int z => some (.int z)
  | fuel, .tup xs => (readValList fuel h xs).map .tup
  | fuel, .strdict kvs => (readValKVs fuel h kvs).map .strdict
  | 0, .ref _ => none
  | fuel + 1, .ref a =>
      match h.lookup a with
      | none => none
      | some obj => (readValList fuel h obj).map .obj
termination_by (fuel, sizeOf v)

/-- Componentwise observation of a list of values. -/
def readValList (fuel : Nat) (h : Heap) (xs : List PyVal) :
    Option (List AbsVal) :=
  match xs with
  | [] => some []
  | x :: rest => do
      let y ← readVal fuel h x
      let ys ← readValList fuel h rest
      some (y :: ys)
termination_by (fuel, sizeOf xs)

/-- Componentwise observation of dict entries. -/
def readValKVs (fuel : Nat) (h : Heap) (kvs : List (String × PyVal)) :
    Option (List (String × AbsVal)) :=
  match kvs with
  | [] => some []
  | (k, x) :: rest => do
      let y ← readVal fuel h x
      let ys ← readValKVs fuel h rest
      some ((k, y) :: ys)
termination_by (fuel, sizeOf kvs)

end

mutual

/-- Address discipline of a value: every address reachable from `v` within
the given depth satisfies `P` and is allocated.  Instantiated with
`P a = (lo ≤ a)` it certifies a freshly deep-copied value, and with
`P a = (a < hi)` a value that predates an allocation boundary. -/
def ValOk (P : Nat → Prop) (fuel : Nat) (h : Heap) (v : PyVal) : Prop :=
  match fuel, v with
  | _, .int _ => True
  | fuel, .tup xs => ValOkList P fuel h xs
  | fuel, .strdict kvs => ValOkKVs P fuel h kvs
  | 0, .ref _ => False
  | fuel + 1, .ref a =>
      P a ∧ ∃ obj, h.lookup a = some obj ∧ ValOkList P fuel h obj
termination_by (fuel, sizeOf v)

/-- Componentwise address discipline for value lists. -/
def ValOkList (P : Nat → Prop) (fuel : Nat) (h : Heap) (xs : List PyVal) :
    Prop :=
  match xs with
  | [] => True
  | x :: rest => ValOk P fuel h x ∧ ValOkList P fuel h rest
termination_by (fuel, sizeOf xs)

/-- Componentwise address discipline for dict entries. -/
def ValOkKVs (P : Nat → Prop) (fuel : Nat) (h : Heap)
    (kvs : List (String × PyVal)) : Prop :=
  match kvs with
  | [] => True
  | (_, x) :: rest => ValOk P fuel h x ∧ ValOkKVs P fuel h rest
termination_by (fuel, sizeOf kvs)

end

/-- Embedding of `__resolve_binding`
(src/pactum/_utils/_resolve_bindings.py, lines 5 to 10): scan the candidate
scopes in order and return the value from the first scope containing the
name; raise ValueError naming the binding if no scope contains it.  The
original message wraps the name in double quotes (here \x22). -/
def resolveBinding (candidates : List (List (String × PyVal)))
    (name : String) : Except PyError PyVal :=
  match candidates with
  | [] => .error (.valueError ("Invalid binding \x22" ++ name ++ "\x22"))
  | scope :: rest =>
      match dictLookup scope name with
      | some v => .ok v
      | none => resolveBinding rest name

/-- The `referenced` dict comprehension of `resolve_bindings`: resolve each
capture entry, binding the resolved value itself (an alias). -/
def resolveCaptures (candidates : List (List (String × PyVal))) :
    List (String × String) → Except PyError (List (String × PyVal))
  | [] => .ok []
  | (k, src) :: rest => do
      let v ← resolveBinding candidates src
      let m ← resolveCaptures candidates rest
      .ok ((k, v) :: m)

/-- The `cloned` dict comprehension of `resolve_bindings`: resolve each
clone entry and bind a deep copy of the resolved value, threading the heap
through the allocations. -/
def resolveClones (fuel : Nat) (candidates : List (List (String × PyVal))) :
    List (String × String) → Heap →
    Except PyError (List (String × PyVal) × Heap)
  | [], h => .ok ([], h)
  | (k, src) :: rest, h => do
      let v ← resolveBinding candidates src
      let (v', h1) ← deepcopy fuel v h
      let (m, h2) ← resolveClones fuel candidates rest h1
      .ok ((k, v') :: m, h2)

/-- Embedding of `resolve_bindings`
(src/pactum/_utils/_resolve_bindings.py, lines 13 to 24): resolve all
captures, then all clones (deep-copying the latter), and merge the two
mappings with the clone entries taking precedence (`referenced | cloned`). -/
def resolve_bindings (fuel : Nat) (h : Heap)
    (candidates : List (List (String × PyVal)))
    (capture clone : List (String × String)) :
    Except PyError (List (String × PyVal) × Heap) := do
  let referenced ← resolveCaptures candidates capture
  let (cloned, h') ← resolveClones fuel candidates clone h
  .ok (dictUnion referenced cloned, h')

/-- Declaration-time data a `pre` assertion object stores
(src/pycontractz/_pre.py, lines 22 to 59): the predicate parameters, the
capture and clone sets (already normalized to mappings from predicate
parameter name to source name), and the evaluation semantic resolved once in
`__init__`. -/
structure PreData where
  predParams : List (String × ParamKind)
  capture : List (String × String)
  clone : List (String × String)
  semantic : EvaluationSemantic

/-- Result of `pre.__call__`: either the original callable object itself,
unchanged, or a checking wrapper around it. -/
inductive WrapOutcome (F : Type) where
  | original : F → WrapOutcome F
  | checked : F → WrapOutcome F

/-- Embedding of `pre.__call__` (src/pycontractz/_pre.py, lines 61 to 117)
up to the wrap-time decision: validate the predicate against the bindings
and the names in scope, then return the original callable unchanged when the
semantic resolved at declaration time is ignore, and a checking wrapper
otherwise. -/
def pre_call {F : Type} (d : PreData) (funcParams : List Param)
    (parentLocalNames parentGlobalNames : List String) (func : F) :
    Except PyError (WrapOutcome F) :=
  let variables_in_scope :=
    funcParams.map Param.name ++ parentLocalNames ++ parentGlobalNames
  let bindings :=
    dictUnion (dictUnion (funcParams.map (fun p => (p.name, p.name)))
      d.capture) d.clone
  match assert_predicate_well_formed d.predParams bindings
      variables_in_scope with
  | .error e => .error e
  | .ok _ =>
      if d.semantic = .ignore then .ok (.original func)
      else .ok (.checked func)

/-- Instrumentation of one wrapped call: whether the predicate was invoked
and whether the wrapped function was invoked. -/
structure CallTrace where
  predicateInvoked : Bool
  functionInvoked : Bool
deriving Repr, DecidableEq

/-- Embedding of the `checked_func` closure produced by `pre.__call__`
(src/pactum/_pre.py, lines 94 to 124; the pycontractz variant at
src/pycontractz/_pre.py, lines 90 to 115, is the same flow): map the actual
arguments onto the declared parameters, resolve the predicate bindings
against the scope chain [mapped arguments, parent locals, parent globals],
assert the precondition, and only then evaluate the wrapped function.  Any
error in an earlier step propagates and skips the later steps. -/
def pre_checked_call (fuel : Nat) (h : Heap) (d : PreData)
    (funcSig : List Param)
    (parentLocals parentGlobals : List (String × PyVal))
    (loc : Option String)
    (predicate : List (String × PyVal) → Except PyError Bool)
    (handler : Handler)
    (func : List PyVal → List (String × PyVal) → Except PyError PyVal)
    (args : List PyVal) (kwargs : List (String × PyVal)) :
    Except PyError (PyVal × Heap) × CallTrace :=
  match map_function_arguments funcSig args kwargs with
  | .error e => (.error e, ⟨false, false⟩)
  | .ok nkwargs =>
      let candidate_bindings := [nkwargs, parentLocals, parentGlobals]
      let captureReq :=
        dictUnion (d.predParams.map (fun p => (p.1, p.1))) d.capture
      match resolve_bindings fuel h candidate_bindings captureReq d.clone with
      | .error e => (.error e, ⟨false, false⟩)
      | .ok (resolved_kwargs, h1) =>
          match assert_contract d.semantic .pre loc predicate
              resolved_kwargs handler with
          | (.error e, tr) => (.error e, ⟨tr.predicateInvoked, false⟩)
          | (.ok _, tr) =>
              match func args kwargs with
              | .error e => (.error e, ⟨tr.predicateInvoked, true⟩)
              | .ok v => (.ok (v, h1), ⟨tr.predicateInvoked, true⟩)

/-- Declaration-time data a `post` assertion object stores
(src/pycontractz/_post.py, lines 40 to 93): predicate parameter names, the
four capture/clone sets, the result parameter inferred by
`__find_result_param`, and the evaluation semantic resolved in `__init__`. -/
structure PostData where
  predParams : List String
  captureBefore : List (String × String)
  captureAfter : List (String × String)
  cloneBefore : List (String × String)
  cloneAfter : List (String × String)
  resultParam : Option String
  semantic : EvaluationSemantic

/-- State that `post.__enter__` leaves on the assertion object for
`post.__exit__`: the candidate scopes and the resolved before-call
bindings. -/
structure PostCMState where
  candidates : List (List (String × PyVal))
  resolvedKwargs : List (String × PyVal)

/-- Embedding of `post.__enter__` (src/pycontractz/_post.py, lines 188 to
210): raise TypeError naming the inferred result parameter when one exists
(before any binding resolution), otherwise resolve the before-type bindings
against [parent locals, parent globals] and save them for `__exit__`.  The
boolean records whether binding resolution was attempted. -/
def post_enter (fuel : Nat) (h : Heap) (d : PostData)
    (parentLocals parentGlobals : List (String × PyVal)) :
    Except PyError (PostCMState × Heap) × Bool :=
  match d.resultParam with
  | some name =>
      (.error (.typeError
        ("Postcondition refers to result \x22" ++ name ++
          "\x22, but usage as context manager precludes result parameter usage")),
       false)
  | none =>
      let candidate_bindings := [parentLocals, parentGlobals]
      match resolve_bindings fuel h candidate_bindings d.captureBefore
          d.cloneBefore with
      | .error e => (.error e, true)
      | .ok (resolved, h') => (.ok (⟨candidate_bindings, resolved⟩, h'), true)

/-- Embedding of `post.__exit__` (src/pycontractz/_post.py, lines 212 to
235): resolve the after-type bindings against the candidate scopes saved by
`__enter__`, merge them over the before-type bindings, and assert the
postcondition. -/
def post_exit (fuel : Nat) (h : Heap) (d : PostData) (st : PostCMState)
    (loc : Option String)
    (predicate : List (String × PyVal) → Except PyError Bool)
    (handler : Handler) :
    Except PyError Heap × EvalTrace :=
  match resolve_bindings fuel h st.candidates d.captureAfter d.cloneAfter with
  | .error e => (.error e, ⟨false, false, none⟩)
  | .ok (after, h') =>
      let merged := dictUnion st.resolvedKwargs after
      match assert_contract d.semantic .post loc predicate merged handler with
      | (.ok _, tr) => (.ok h', tr)
      | (.error e, tr) => (.error e, tr)

/-- Embedding of the module-level semantics table `__assertion_semantics`
(src/pycontractz/contract_violation_handler.py, line 12): one
EvaluationSemantic per AssertionKind. -/
structure SemTable where
  preSem : EvaluationSemantic
  postSem : EvaluationSemantic
  assertionSem : EvaluationSemantic
deriving Repr, DecidableEq

/-- Embedding of `set_contract_evaluation_semantics`
(src/pycontractz/contract_violation_handler.py, lines 31 to 49).  Its
declared parameters are exactly `default`, `pre` and `post`; `default` may
be a single semantic, a whole table, or None (in which case the current
table is used).  Only the pre and post entries of the table are written. -/
def set_contract_evaluation_semantics
    (dflt : Option (EvaluationSemantic ⊕ SemTable))
    (preArg postArg : Option EvaluationSemantic) (table : SemTable) :
    SemTable :=
  let d : SemTable :=
    match dflt with
    | none => table
    | some (.inl s) => ⟨s, s, s⟩
    | some (.inr t) => t
  let p :=
    match preArg with
    | none => d.preSem
    | some s => s
  let q :=
    match postArg with
    | none => d.postSem
    | some s => s
  { table with preSem := p, postSem := q }

/-- Embedding of `get_contract_evaluation_semantic`
(src/pycontractz/contract_violation_handler.py, lines 52 to 58): with no
kind, the whole table is returned (in Python, the live dict itself, not a
copy); with a kind, that entry. -/
def get_contract_evaluation_semantic (kind : Option AssertionKind)
    (table : SemTable) : EvaluationSemantic ⊕ SemTable :=
  match kind with
  | none => .inr table
  | some .pre => .inl table.preSem
  | some .post => .inl table.postSem
  | some .assertion => .inl table.assertionSem

/-- Constructor arguments of the `contract_evaluation_semantics` context
manager (src/pycontractz/contract_violation_handler.py, lines 80 to 90):
optional default, pre, post and assertion semantics. -/
structure ContractEvaluationSemanticsCM where
  dflt : Option EvaluationSemantic
  preArg : Option EvaluationSemantic
  postArg : Option EvaluationSemantic
  assertionArg : Option EvaluationSemantic

/-- Embedding of a keyword call
`set_contract_evaluation_semantics(default=.., pre=.., post=.., assertion=..)`.
Python binds the keyword arguments of a call against the declared parameter
list of the callee before its body runs; the declaration at lines 31 to 35
has no parameter named `assertion`, so passing that keyword (whatever its
value, None included) raises TypeError at the call. -/
def callSetContractEvaluationSemantics
    (dflt : Option (EvaluationSemantic ⊕ SemTable))
    (preArg postArg : Option EvaluationSemantic)
    (assertionKw : Option (Option EvaluationSemantic)) (table : SemTable) :
    Except PyError SemTable :=
  match assertionKw with
  | some _ =>
      .error (.typeError
        "set_contract_evaluation_semantics got an unexpected keyword argument assertion")
  | none => .ok (set_contract_evaluation_semantics dflt preArg postArg table)

/-- Embedding of `contract_evaluation_semantics.__enter__`
(src/pycontractz/contract_violation_handler.py, lines 92 to 97): save the
current table, then call `set_contract_evaluation_semantics` with the four
constructor values — the `assertion=self.assertion` keyword is always
passed, even when its value is None.  On success the new table and the saved
table would be returned. -/
def contract_evaluation_semantics_enter (cm : ContractEvaluationSemanticsCM)
    (table : SemTable) : Except PyError (SemTable × SemTable) :=
  let old_semantics := table
  match callSetContractEvaluationSemantics (cm.dflt.map Sum.inl) cm.preArg
      cm.postArg (some cm.assertionArg) table with
  | .error e => .error e
  | .ok t => .ok (t, old_semantics)

theorem dictLookup_nil (k : String) : dictLookup ([] : List (String × α)) k = none := rfl

theorem dictLookup_cons (kv : String × α) (d : List (String × α)) (k : String) :
    dictLookup (kv :: d) k = if kv.1 = k then some kv.2 else dictLookup d k := by
  unfold dictLookup
  rw [List.find?_cons]
  by_cases h : kv.1 = k <;> simp [h]

theorem dictLookup_dictInsert_self (d : List (String × α)) (k : String) (v : α) :
    dictLookup (dictInsert d k v) k = some v := by
  induction d with
  | nil => simp [dictInsert, dictLookup_cons]
  | cons kv rest ih =>
      unfold dictInsert
      by_cases h : kv.1 = k
      · simp [h, dictLookup_cons]
      · simp [h, dictLookup_cons, ih]

theorem dictLookup_dictInsert_other (d : List (String × α)) (k k' : String)
    (v : α) (hne : k' ≠ k) :
    dictLookup (dictInsert d k v) k' = dictLookup d k' := by
  induction d with
  | nil => simp [dictInsert, dictLookup_cons, dictLookup_nil, Ne.symm hne]
  | cons kv rest ih =>
      obtain ⟨k1, v1⟩ := kv
      unfold dictInsert
      by_cases h : k1 = k
      · subst h
        simp [dictLookup_cons, Ne.symm hne]
      · simp [h, dictLookup_cons, ih]

theorem mem_dictKeys_iff (d : List (String × α)) (k : String) :
    k ∈ dictKeys d ↔ ∃ v, (k, v) ∈ d := by
  unfold dictKeys
  rw [List.mem_map]
  constructor
  · rintro ⟨⟨k1, v⟩, hkv, rfl⟩
    exact ⟨v, hkv⟩
  · rintro ⟨v, hv⟩
    exact ⟨(k, v), hv, rfl⟩

theorem dictLookup_eq_none_iff (d : List (String × α)) (k : String) :
    dictLookup d k = none ↔ k ∉ dictKeys d := by
  induction d with
  | nil => simp [dictLookup_nil, dictKeys]
  | cons kv rest ih =>
      obtain ⟨k1, v1⟩ := kv
      rw [dictLookup_cons]
      by_cases h : k1 = k
      · subst h
        simp [dictKeys]
      · have hk : ¬(k = k1) := fun hk => h hk.symm
        simp [h, dictKeys, ih, hk]

theorem dictLookup_isSome_iff (d : List (String × α)) (k : String) :
    (dictLookup d k).isSome = true ↔ k ∈ dictKeys d := by
  cases hl : dictLookup d k with
  | none =>
      simp only [Option.isSome_none, Bool.false_eq_true, false_iff]
      exact (dictLookup_eq_none_iff d k).mp hl
  | some v =>
      simp only [Option.isSome_some, true_iff]
      by_contra hk
      have := (dictLookup_eq_none_iff d k).mpr hk
      rw [hl] at this
      cases this

theorem mem_dictKeys_dictInsert (d : List (String × α)) (k k' : String)
    (v : α) :
    k' ∈ dictKeys (dictInsert d k v) ↔ k' ∈ dictKeys d ∨ k' = k := by
  induction d with
  | nil => simp [dictInsert, dictKeys]
  | cons kv rest ih =>
      obtain ⟨k1, v1⟩ := kv
      unfold dictInsert
      by_cases h : k1 = k
      · subst h
        simp [dictKeys]
        tauto
      · simp only [if_neg h, dictKeys, List.map_cons, List.mem_cons] at *
        rw [ih]
        tauto

theorem dictContains_eq_true_iff (d : List (String × α)) (k : String) :
    dictContains d k = true ↔ k ∈ dictKeys d := by
  unfold dictContains
  rw [List.any_eq_true, mem_dictKeys_iff]
  constructor
  · rintro ⟨⟨k1, v⟩, hmem, hk⟩
    have hk' : k1 = k := of_decide_eq_true hk
    subst hk'
    exact ⟨v, hmem⟩
  · rintro ⟨v, hv⟩
    exact ⟨(k, v), hv, by simp⟩

theorem bnot_dictContains_eq (d : List (String × α)) (k : String) :
    (!dictContains d k) = decide (k ∉ dictKeys d) := by
  by_cases h : k ∈ dictKeys d
  · rw [(dictContains_eq_true_iff d k).mpr h]
    simp [h]
  · have hc : dictContains d k = false := by
      cases hcc : dictContains d k with
      | false => rfl
      | true => exact absurd ((dictContains_eq_true_iff d k).mp hcc) h
    rw [hc]
    simp [h]

theorem dictInsert_eq_append (d : List (String × α)) (k : String) (v : α) :
    k ∉ dictKeys d → dictInsert d k v = d ++ [(k, v)] := by
  induction d with
  | nil => intro _; rfl
  | cons kv rest ih =>
      intro h
      rw [dictKeys, List.map_cons, List.mem_cons] at h
      push_neg at h
      unfold dictInsert
      rw [if_neg (fun hc => h.1 hc.symm), List.cons_append,
        ih (by rw [dictKeys]; exact h.2)]

theorem dictKeys_append (a b : List (String × α)) :
    dictKeys (a ++ b) = dictKeys a ++ dictKeys b := by
  simp [dictKeys]

theorem dictKeys_dictInsert_fresh (d : List (String × α)) (k : String) (v : α)
    (h : k ∉ dictKeys d) :
    dictKeys (dictInsert d k v) = dictKeys d ++ [k] := by
  rw [dictInsert_eq_append d k v h, dictKeys_append]
  rfl

theorem drop_eq_cons_of_getElem (l : List α) :
    ∀ i v, l[i]? = some v → l.drop i = v :: l.drop (i + 1) := by
  induction l with
  | nil =>
      intro i v h
      simp at h
  | cons a l ih =>
      intro i v h
      cases i with
      | zero =>
          rw [List.getElem?_cons_zero] at h
          cases h
          rfl
      | succ i =>
          rw [List.getElem?_cons_succ] at h
          exact ih i v h

theorem drop_eq_nil_of_getElem_none (l : List α) (i : Nat)
    (h : l[i]? = none) : l.drop i = [] := by
  have hle : l.length ≤ i := by
    by_contra hlt
    push_neg at hlt
    rw [List.getElem?_eq_getElem hlt] at h
    cases h
  exact List.drop_eq_nil_of_le hle

theorem drop_add_drop_length (l : List α) (i : Nat) :
    l.drop (i + (l.drop i).length) = [] := by
  apply List.drop_eq_nil_of_le
  rw [List.length_drop]
  omega

theorem spec_map_walk_posOnly (kwargs : List (String × PyVal))
    (pname : String) (pdef : Bool) (ps : List Param) (rem : List PyVal)
    (bound : List String) :
    spec_map_walk kwargs (⟨pname, .positionalOnly, pdef⟩ :: ps) rem bound =
      match rem with
      | v :: rem' =>
          match spec_map_walk kwargs ps rem' (bound ++ [pname]) with
          | .error e => .error e
          | .ok (out, remF, hk) => .ok ((pname, v) :: out, remF, hk)
      | [] =>
          if pdef = true then spec_map_walk kwargs ps [] bound
          else .error () := rfl

theorem spec_map_walk_posOrKw (kwargs : List (String × PyVal))
    (pname : String) (pdef : Bool) (ps : List Param) (rem : List PyVal)
    (bound : List String) :
    spec_map_walk kwargs (⟨pname, .positionalOrKeyword, pdef⟩ :: ps) rem
        bound =
      match dictLookup kwargs pname with
      | some v =>
          match spec_map_walk kwargs ps rem (bound ++ [pname]) with
          | .error e => .error e
          | .ok (out, remF, hk) => .ok ((pname, v) :: out, remF, hk)
      | none =>
          match rem with
          | v :: rem' =>
              match spec_map_walk kwargs ps rem' (bound ++ [pname]) with
              | .error e => .error e
              | .ok (out, remF, hk) => .ok ((pname, v) :: out, remF, hk)
          | [] =>
              if pdef = true then spec_map_walk kwargs ps [] bound
              else .error () := rfl

theorem spec_map_walk_kwOnly (kwargs : List (String × PyVal))
    (pname : String) (pdef : Bool) (ps : List Param) (rem : List PyVal)
    (bound : List String) :
    spec_map_walk kwargs (⟨pname, .keywordOnly, pdef⟩ :: ps) rem bound =
      match dictLookup kwargs pname with
      | some v =>
          match spec_map_walk kwargs ps rem (bound ++ [pname]) with
          | .error e => .error e
          | .ok (out, remF, hk) => .ok ((pname, v) :: out, remF, hk)
      | none =>
          if pdef = true then spec_map_walk kwargs ps rem bound
          else .error () := rfl

theorem spec_map_walk_varPos (kwargs : List (String × PyVal))
    (pname : String) (pdef : Bool) (ps : List Param) (rem : List PyVal)
    (bound : List String) :
    spec_map_walk kwargs (⟨pname, .varPositional, pdef⟩ :: ps) rem bound =
      match spec_map_walk kwargs ps [] (bound ++ [pname]) with
      | .error e => .error e
      | .ok (out, remF, hk) => .ok ((pname, .tup rem) :: out, remF, hk) := rfl

theorem spec_map_walk_varKw (kwargs : List (String × PyVal))
    (pname : String) (pdef : Bool) (ps : List Param) (rem : List PyVal)
    (bound : List String) :
    spec_map_walk kwargs (⟨pname, .varKeyword, pdef⟩ :: ps) rem bound =
      match spec_map_walk kwargs ps rem (bound ++ [pname]) with
      | .error e => .error e
      | .ok (out, remF, _) =>
          .ok ((pname,
              .strdict (kwargs.filter
                (fun kv => decide (kv.1 ∉ bound)))) :: out, remF, true) := rfl

theorem mapArgsStep_ok_spec (args : List PyVal)
    (kwargs : List (String × PyVal)) (p : Param) (st st1 : MapSt)
    (h : mapArgsStep args kwargs p st = .ok st1) :
    (∃ v, st1.argsmap = dictInsert st.argsmap p.name v) ∧
    st.i ≤ st1.i ∧
    (st.i ≤ args.length → st1.i ≤ args.length) ∧
    st1.hasKw = (st.hasKw || decide (p.kind = .varKeyword)) ∧
    (p.kind = .keywordOnly →
      ∃ v, dictLookup kwargs p.name = some v ∧
        dictLookup st1.argsmap p.name = some v) ∧
    (p.kind = .positionalOrKeyword → ∀ w, dictLookup kwargs p.name = some w →
      dictLookup st1.argsmap p.name = some w) ∧
    ((p.kind = .positionalOnly ∨
        (p.kind = .positionalOrKeyword ∧ dictLookup kwargs p.name = none)) →
      ∃ v, args[st.i]? = some v ∧ dictLookup st1.argsmap p.name = some v) := by
  obtain ⟨pname, pkind, pdef⟩ := p
  unfold mapArgsStep at h
  dsimp only at h ⊢
  cases pkind with
  | positionalOnly =>
      dsimp only at h
      cases ha : args[st.i]? with
      | none => rw [ha] at h; cases h
      | some v =>
          rw [ha] at h
          cases h
          have hlt : st.i < args.length := by
            by_contra hge
            push_neg at hge
            rw [List.getElem?_eq_none hge] at ha
            cases ha
          refine ⟨⟨v, rfl⟩, Nat.le_succ _, fun _ => hlt, by simp, ?_, ?_, ?_⟩
          · intro hc; cases hc
          · intro hc; cases hc
          · intro _
            exact ⟨v, rfl, dictLookup_dictInsert_self _ _ _⟩
  | positionalOrKeyword =>
      dsimp only at h
      cases hkw : dictLookup kwargs pname with
      | some v =>
          rw [hkw] at h
          cases h
          refine ⟨⟨v, rfl⟩, Nat.le_refl _, fun hle => hle, by simp, ?_, ?_, ?_⟩
          · intro hc; cases hc
          · intro _ w hw
            cases hw
            exact dictLookup_dictInsert_self _ _ _
          · rintro (hc | ⟨_, hc⟩)
            · cases hc
            · cases hc
      | none =>
          rw [hkw] at h
          cases ha : args[st.i]? with
          | none => rw [ha] at h; cases h
          | some v =>
              rw [ha] at h
              cases h
              have hlt : st.i < args.length := by
                by_contra hge
                push_neg at hge
                rw [List.getElem?_eq_none hge] at ha
                cases ha
              refine ⟨⟨v, rfl⟩, Nat.le_succ _, fun _ => hlt, by simp,
                ?_, ?_, ?_⟩
              · intro hc; cases hc
              · intro _ w hw
                cases hw
              · intro _
                exact ⟨v, rfl, dictLookup_dictInsert_self _ _ _⟩
  | keywordOnly =>
      dsimp only at h
      cases hkw : dictLookup kwargs pname with
      | none => rw [hkw] at h; cases h
      | some v =>
          rw [hkw] at h
          cases h
          refine ⟨⟨v, rfl⟩, Nat.le_refl _, fun hle => hle, by simp, ?_, ?_, ?_⟩
          · intro _
            exact ⟨v, rfl, dictLookup_dictInsert_self _ _ _⟩
          · intro hc; cases hc
          · rintro (hc | ⟨hc, _⟩) <;> cases hc
  | varPositional =>
      dsimp only at h
      cases h
      refine ⟨⟨.tup (args.drop st.i), rfl⟩, Nat.le_add_right _ _, ?_, by simp,
        ?_, ?_, ?_⟩
      · intro hle
        show st.i + (args.drop st.i).length ≤ args.length
        rw [List.length_drop]
        omega
      · intro hc; cases hc
      · intro hc; cases hc
      · rintro (hc | ⟨hc, _⟩) <;> cases hc
  | varKeyword =>
      dsimp only at h
      cases h
      refine ⟨⟨_, rfl⟩, Nat.le_refl _, fun hle => hle, by simp, ?_, ?_, ?_⟩
      · intro hc; cases hc
      · intro hc; cases hc
      · rintro (hc | ⟨hc, _⟩) <;> cases hc

theorem mapArgsStep_error_spec (args : List PyVal)
    (kwargs : List (String × PyVal)) (p : Param) (st : MapSt) (e : LookupErr)
    (h : mapArgsStep args kwargs p st = .error e) :
    p.kind ≠ .varPositional ∧ p.kind ≠ .varKeyword ∧
    (p.kind = .keywordOnly → dictLookup kwargs p.name = none) ∧
    (p.kind = .positionalOrKeyword → dictLookup kwargs p.name = none) := by
  obtain ⟨pname, pkind, pdef⟩ := p
  unfold mapArgsStep at h
  dsimp only at h ⊢
  cases pkind with
  | positionalOnly =>
      refine ⟨?_, ?_, ?_, ?_⟩ <;> (intro hc; cases hc)
  | positionalOrKeyword =>
      dsimp only at h
      cases hkw : dictLookup kwargs pname with
      | some v =>
          rw [hkw] at h
          cases h
      | none =>
          refine ⟨?_, ?_, ?_, fun _ => rfl⟩ <;> (intro hc; cases hc)
  | keywordOnly =>
      dsimp only at h
      cases hkw : dictLookup kwargs pname with
      | some v => rw [hkw] at h; cases h
      | none =>
          refine ⟨?_, ?_, fun _ => rfl, ?_⟩ <;> (intro hc; cases hc)
  | varPositional => dsimp only at h; cases h
  | varKeyword => dsimp only at h; cases h

theorem mapArgsLoop_invariant (args : List PyVal)
    (kwargs : List (String × PyVal)) (ps : List Param) (st' : MapSt) :
    ∀ st : MapSt, (ps.map Param.name).Nodup →
    (∀ k ∈ dictKeys st.argsmap, k ∉ ps.map Param.name) →
    mapArgsLoop args kwargs ps st = .ok st' →
    (∀ k ∈ dictKeys st'.argsmap,
        k ∈ dictKeys st.argsmap ∨ k ∈ ps.map Param.name) ∧
    (∀ k ∈ dictKeys st.argsmap,
        dictLookup st'.argsmap k = dictLookup st.argsmap k) ∧
    (∀ p ∈ ps, p.hasDefault = false → p.name ∈ dictKeys st'.argsmap) ∧
    (∀ p ∈ ps, (p.kind = .varPositional ∨ p.kind = .varKeyword) →
        p.name ∈ dictKeys st'.argsmap) ∧
    (∀ p ∈ ps, p.kind = .keywordOnly → dictLookup kwargs p.name = none →
        p.name ∉ dictKeys st'.argsmap) ∧
    (∀ p ∈ ps, p.kind = .keywordOnly → ∀ v,
        dictLookup st'.argsmap p.name = some v →
        dictLookup kwargs p.name = some v) ∧
    (∀ p ∈ ps, p.kind = .positionalOrKeyword → ∀ w,
        dictLookup kwargs p.name = some w →
        dictLookup st'.argsmap p.name = some w) ∧
    (∀ p ∈ ps, (p.kind = .positionalOnly ∨
        (p.kind = .positionalOrKeyword ∧ dictLookup kwargs p.name = none)) →
        ∀ v, dictLookup st'.argsmap p.name = some v →
        ∃ j, j < args.length ∧ args[j]? = some v) ∧
    (st'.hasKw = (st.hasKw || ps.any (fun p => p.kind = .varKeyword))) ∧
    st.i ≤ st'.i ∧
    (st.i ≤ args.length → st'.i ≤ args.length) := by
  induction ps with
  | nil =>
      intro st _ _ hloop
      unfold mapArgsLoop at hloop
      cases hloop
      exact ⟨fun k hk => Or.inl hk, fun k _ => rfl, by simp, by simp,
        by simp, by simp, by simp, by simp, by simp, Nat.le_refl _,
        fun hle => hle⟩
  | cons p rest ih =>
      intro st hnd hdisj hloop
      rw [List.map_cons] at hnd
      have hnd2 := List.nodup_cons.mp hnd
      have hpn : p.name ∉ rest.map Param.name := hnd2.1
      have hnd' : (rest.map Param.name).Nodup := hnd2.2
      have hpmem : p.name ∈ (p :: rest).map Param.name := by simp
      unfold mapArgsLoop at hloop
      cases hstep : mapArgsStep args kwargs p st with
      | error e =>
          rw [hstep] at hloop
          dsimp only at hloop
          obtain ⟨he1, he2, he3, he4⟩ :=
            mapArgsStep_error_spec args kwargs p st e hstep
          by_cases hdef : p.hasDefault
          · rw [if_pos hdef] at hloop
            have hdisj' : ∀ k ∈ dictKeys st.argsmap,
                k ∉ rest.map Param.name := by
              intro k hk hmem
              exact hdisj k hk (by simp [hmem])
            obtain ⟨i1, i2, i3, i4, i5, i6, i7, i8, i9, i10, i11⟩ :=
              ih st hnd' hdisj' hloop
            have hpns : p.name ∉ dictKeys st.argsmap :=
              fun hmem => hdisj p.name hmem hpmem
            have hpns' : p.name ∉ dictKeys st'.argsmap := by
              intro hmem
              rcases i1 p.name hmem with h1 | h1
              · exact hpns h1
              · exact hpn h1
            refine ⟨?_, i2, ?_, ?_, ?_, ?_, ?_, ?_, ?_, i10, i11⟩
            · intro k hk
              rcases i1 k hk with h1 | h1
              · exact Or.inl h1
              · exact Or.inr (by simp [h1])
            · intro q hq hqd
              rcases List.mem_cons.mp hq with rfl | hq'
              · rw [hqd] at hdef; cases hdef
              · exact i3 q hq' hqd
            · intro q hq hqk
              rcases List.mem_cons.mp hq with rfl | hq'
              · rcases hqk with hqk | hqk
                · exact absurd hqk he1
                · exact absurd hqk he2
              · exact i4 q hq' hqk
            · intro q hq hqk hqn
              rcases List.mem_cons.mp hq with rfl | hq'
              · exact hpns'
              · exact i5 q hq' hqk hqn
            · intro q hq hqk v hv
              rcases List.mem_cons.mp hq with rfl | hq'
              · exact absurd hv (by
                  rw [(dictLookup_eq_none_iff _ _).mpr hpns']
                  exact fun hc => nomatch hc)
              · exact i6 q hq' hqk v hv
            · intro q hq hqk w hw
              rcases List.mem_cons.mp hq with rfl | hq'
              · rw [he4 hqk] at hw; cases hw
              · exact i7 q hq' hqk w hw
            · intro q hq hqk v hv
              rcases List.mem_cons.mp hq with rfl | hq'
              · exact absurd hv (by
                  rw [(dictLookup_eq_none_iff _ _).mpr hpns']
                  exact fun hc => nomatch hc)
              · exact i8 q hq' hqk v hv
            · rw [i9]
              have : decide (p.kind = ParamKind.varKeyword) = false := by
                simpa using he2
              simp [List.any_cons, this]
          · rw [if_neg hdef] at hloop
            cases hloop
      | ok st1 =>
          rw [hstep] at hloop
          dsimp only at hloop
          obtain ⟨⟨v0, hmap1⟩, hi1, hi2, hkw1, hko, hpok, hpos⟩ :=
            mapArgsStep_ok_spec args kwargs p st st1 hstep
          have hmem1 : ∀ k, k ∈ dictKeys st1.argsmap ↔
              (k ∈ dictKeys st.argsmap ∨ k = p.name) := by
            intro k
            rw [hmap1]
            exact mem_dictKeys_dictInsert _ _ _ _
          have hpres : ∀ k, k ≠ p.name →
              dictLookup st1.argsmap k = dictLookup st.argsmap k := by
            intro k hk
            rw [hmap1]
            exact dictLookup_dictInsert_other _ _ _ _ hk
          have hself : dictLookup st1.argsmap p.name = some v0 := by
            rw [hmap1]
            exact dictLookup_dictInsert_self _ _ _
          have hdisj1 : ∀ k ∈ dictKeys st1.argsmap,
              k ∉ rest.map Param.name := by
            intro k hk
            rcases (hmem1 k).mp hk with h1 | rfl
            · exact fun hmem => hdisj k h1 (by simp [hmem])
            · exact hpn
          obtain ⟨i1, i2, i3, i4, i5, i6, i7, i8, i9, i10, i11⟩ :=
            ih st1 hnd' hdisj1 hloop
          have hp1 : p.name ∈ dictKeys st1.argsmap := (hmem1 p.name).mpr (Or.inr rfl)
          have hlook' : dictLookup st'.argsmap p.name = some v0 := by
            rw [i2 p.name hp1]
            exact hself
          have hpm' : p.name ∈ dictKeys st'.argsmap := by
            rw [← dictLookup_isSome_iff]
            rw [hlook']
            rfl
          refine ⟨?_, ?_, ?_, ?_, ?_, ?_, ?_, ?_, ?_, hi1.trans i10,
            fun hle => i11 (hi2 hle)⟩
          · intro k hk
            rcases i1 k hk with h1 | h1
            · rcases (hmem1 k).mp h1 with h2 | rfl
              · exact Or.inl h2
              · exact Or.inr hpmem
            · exact Or.inr (by simp [h1])
          · intro k hk
            have hkne : k ≠ p.name :=
              fun hc => hdisj k hk (by rw [hc]; exact hpmem)
            rw [i2 k ((hmem1 k).mpr (Or.inl hk))]
            exact hpres k hkne
          · intro q hq _
            rcases List.mem_cons.mp hq with rfl | hq'
            · exact hpm'
            · exact i3 q hq' (by assumption)
          · intro q hq hqk
            rcases List.mem_cons.mp hq with rfl | hq'
            · exact hpm'
            · exact i4 q hq' hqk
          · intro q hq hqk hqn
            rcases List.mem_cons.mp hq with rfl | hq'
            · obtain ⟨v, hv, _⟩ := hko hqk
              rw [hqn] at hv
              cases hv
            · exact i5 q hq' hqk hqn
          · intro q hq hqk v hv
            rcases List.mem_cons.mp hq with rfl | hq'
            · obtain ⟨v1, hv1, hv2⟩ := hko hqk
              rw [i2 q.name hp1, hv2] at hv
              cases hv
              exact hv1
            · exact i6 q hq' hqk v hv
          · intro q hq hqk w hw
            rcases List.mem_cons.mp hq with rfl | hq'
            · rw [i2 q.name hp1]
              exact hpok hqk w hw
            · exact i7 q hq' hqk w hw
          · intro q hq hqk v hv
            rcases List.mem_cons.mp hq with rfl | hq'
            · obtain ⟨v1, hv1, hv2⟩ := hpos hqk
              rw [i2 q.name hp1, hv2] at hv
              cases hv
              refine ⟨st.i, ?_, hv1⟩
              by_contra hge
              push_neg at hge
              rw [List.getElem?_eq_none hge] at hv1
              cases hv1
            · exact i8 q hq' hqk v hv
          · rw [i9, hkw1]
            simp [List.any_cons, Bool.or_assoc]

theorem mapArgsLoop_eq_specWalk (args : List PyVal)
    (kwargs : List (String × PyVal)) (ps : List Param) :
    ∀ st : MapSt, (ps.map Param.name).Nodup →
    (∀ k ∈ dictKeys st.argsmap, k ∉ ps.map Param.name) →
    (∀ e, mapArgsLoop args kwargs ps st = .error e →
        spec_map_walk kwargs ps (args.drop st.i) (dictKeys st.argsmap) =
          .error ()) ∧
    (∀ st', mapArgsLoop args kwargs ps st = .ok st' →
        ∃ out hk,
          spec_map_walk kwargs ps (args.drop st.i) (dictKeys st.argsmap) =
            .ok (out, args.drop st'.i, hk) ∧
          st'.argsmap = st.argsmap ++ out ∧
          st'.hasKw = (st.hasKw || hk)) := by
  induction ps with
  | nil =>
      intro st _ _
      refine ⟨?_, ?_⟩
      · intro e he
        unfold mapArgsLoop at he
        cases he
      · intro st' ho
        unfold mapArgsLoop at ho
        cases ho
        exact ⟨[], false, rfl, by simp, by simp⟩
  | cons p rest ih =>
      intro st hnd hdisj
      obtain ⟨pname, pkind, pdef⟩ := p
      rw [List.map_cons] at hnd
      have hnd2 := List.nodup_cons.mp hnd
      have hpn : pname ∉ rest.map Param.name := hnd2.1
      have hnd' : (rest.map Param.name).Nodup := hnd2.2
      have hpnotin : pname ∉ dictKeys st.argsmap :=
        fun hm => hdisj pname hm (by simp)
      have hdisjR : ∀ k ∈ dictKeys st.argsmap, k ∉ rest.map Param.name :=
        fun k hk hm => hdisj k hk (by simp [hm])
      cases pkind with
      | positionalOnly =>
          cases ha : args[st.i]? with
          | some v =>
              have hrem := drop_eq_cons_of_getElem args st.i v ha
              have hL : mapArgsLoop args kwargs
                    (⟨pname, .positionalOnly, pdef⟩ :: rest) st =
                  mapArgsLoop args kwargs rest
                    ⟨dictInsert st.argsmap pname v, st.i + 1, st.hasKw⟩ := by
                simp only [mapArgsLoop, mapArgsStep]
                rw [ha]
              have hkeys1 : dictKeys (dictInsert st.argsmap pname v) =
                  dictKeys st.argsmap ++ [pname] :=
                dictKeys_dictInsert_fresh _ _ _ hpnotin
              have hdisj1 : ∀ k ∈ dictKeys (dictInsert st.argsmap pname v),
                  k ∉ rest.map Param.name := by
                intro k hk
                rw [hkeys1, List.mem_append, List.mem_singleton] at hk
                rcases hk with hk | rfl
                · exact hdisjR k hk
                · exact hpn
              obtain ⟨ihE, ihO⟩ := ih
                ⟨dictInsert st.argsmap pname v, st.i + 1, st.hasKw⟩ hnd' hdisj1
              refine ⟨?_, ?_⟩
              · intro e he
                rw [hL] at he
                have hs := ihE e he
                dsimp only at hs
                rw [hkeys1] at hs
                rw [spec_map_walk_posOnly, hrem]
                dsimp only
                rw [hs]
              · intro st' ho
                rw [hL] at ho
                obtain ⟨out, hk, hseq, hmap, hkw⟩ := ihO st' ho
                dsimp only at hseq hmap hkw
                rw [hkeys1] at hseq
                refine ⟨(pname, v) :: out, hk, ?_, ?_, hkw⟩
                · rw [spec_map_walk_posOnly, hrem]
                  dsimp only
                  rw [hseq]
                · rw [hmap, dictInsert_eq_append _ _ _ hpnotin,
                    List.append_assoc]
                  rfl
          | none =>
              have hrem := drop_eq_nil_of_getElem_none args st.i ha
              cases hdefc : pdef with
              | true =>
                  have hL : mapArgsLoop args kwargs
                        (⟨pname, .positionalOnly, true⟩ :: rest) st =
                      mapArgsLoop args kwargs rest st := by
                    simp only [mapArgsLoop, mapArgsStep]
                    rw [ha]
                    rfl
                  obtain ⟨ihE, ihO⟩ := ih st hnd' hdisjR
                  refine ⟨?_, ?_⟩
                  · intro e he
                    rw [hL] at he
                    have hs := ihE e he
                    rw [hrem] at hs
                    rw [spec_map_walk_posOnly, hrem]
                    dsimp only
                    rw [if_pos rfl]
                    exact hs
                  · intro st' ho
                    rw [hL] at ho
                    obtain ⟨out, hk, hseq, hmap, hkw⟩ := ihO st' ho
                    rw [hrem] at hseq
                    refine ⟨out, hk, ?_, hmap, hkw⟩
                    rw [spec_map_walk_posOnly, hrem]
                    dsimp only
                    rw [if_pos rfl]
                    exact hseq
              | false =>
                  have hL : mapArgsLoop args kwargs
                        (⟨pname, .positionalOnly, false⟩ :: rest) st =
                      .error .indexError := by
                    simp only [mapArgsLoop, mapArgsStep]
                    rw [ha]
                    rfl
                  refine ⟨?_, ?_⟩
                  · intro e he
                    rw [spec_map_walk_posOnly, hrem]
                    simp
                  · intro st' ho
                    rw [hL] at ho
                    cases ho
      | positionalOrKeyword =>
          cases hkwl : dictLookup kwargs pname with
          | some v =>
              have hL : mapArgsLoop args kwargs
                    (⟨pname, .positionalOrKeyword, pdef⟩ :: rest) st =
                  mapArgsLoop args kwargs rest
                    ⟨dictInsert st.argsmap pname v, st.i, st.hasKw⟩ := by
                simp only [mapArgsLoop, mapArgsStep]
                rw [hkwl]
              have hkeys1 : dictKeys (dictInsert st.argsmap pname v) =
                  dictKeys st.argsmap ++ [pname] :=
                dictKeys_dictInsert_fresh _ _ _ hpnotin
              have hdisj1 : ∀ k ∈ dictKeys (dictInsert st.argsmap pname v),
                  k ∉ rest.map Param.name := by
                intro k hk
                rw [hkeys1, List.mem_append, List.mem_singleton] at hk
                rcases hk with hk | rfl
                · exact hdisjR k hk
                · exact hpn
              obtain ⟨ihE, ihO⟩ := ih
                ⟨dictInsert st.argsmap pname v, st.i, st.hasKw⟩ hnd' hdisj1
              refine ⟨?_, ?_⟩
              · intro e he
                rw [hL] at he
                have hs := ihE e he
                dsimp only at hs
                rw [hkeys1] at hs
                rw [spec_map_walk_posOrKw, hkwl]
                dsimp only
                rw [hs]
              · intro st' ho
                rw [hL] at ho
                obtain ⟨out, hk, hseq, hmap, hkw⟩ := ihO st' ho
                dsimp only at hseq hmap hkw
                rw [hkeys1] at hseq
                refine ⟨(pname, v) :: out, hk, ?_, ?_, hkw⟩
                · rw [spec_map_walk_posOrKw, hkwl]
                  dsimp only
                  rw [hseq]
                · rw [hmap, dictInsert_eq_append _ _ _ hpnotin,
                    List.append_assoc]
                  rfl
          | none =>
              cases ha : args[st.i]? with
              | some v =>
                  have hrem := drop_eq_cons_of_getElem args st.i v ha
                  have hL : mapArgsLoop args kwargs
                        (⟨pname, .positionalOrKeyword, pdef⟩ :: rest) st =
                      mapArgsLoop args kwargs rest
                        ⟨dictInsert st.argsmap pname v, st.i + 1,
                          st.hasKw⟩ := by
                    simp only [mapArgsLoop, mapArgsStep]
                    rw [hkwl, ha]
                  have hkeys1 : dictKeys (dictInsert st.argsmap pname v) =
                      dictKeys st.argsmap ++ [pname] :=
                    dictKeys_dictInsert_fresh _ _ _ hpnotin
                  have hdisj1 : ∀ k ∈ dictKeys (dictInsert st.argsmap pname v),
                      k ∉ rest.map Param.name := by
                    intro k hk
                    rw [hkeys1, List.mem_append, List.mem_singleton] at hk
                    rcases hk with hk | rfl
                    · exact hdisjR k hk
                    · exact hpn
                  obtain ⟨ihE, ihO⟩ := ih
                    ⟨dictInsert st.argsmap pname v, st.i + 1, st.hasKw⟩
                    hnd' hdisj1
                  refine ⟨?_, ?_⟩
                  · intro e he
                    rw [hL] at he
                    have hs := ihE e he
                    dsimp only at hs
                    rw [hkeys1] at hs
                    rw [spec_map_walk_posOrKw, hkwl, hrem]
                    dsimp only
                    rw [hs]
                  · intro st' ho
                    rw [hL] at ho
                    obtain ⟨out, hk, hseq, hmap, hkw⟩ := ihO st' ho
                    dsimp only at hseq hmap hkw
                    rw [hkeys1] at hseq
                    refine ⟨(pname, v) :: out, hk, ?_, ?_, hkw⟩
                    · rw [spec_map_walk_posOrKw, hkwl, hrem]
                      dsimp only
                      rw [hseq]
                    · rw [hmap, dictInsert_eq_append _ _ _ hpnotin,
                        List.append_assoc]
                      rfl
              | none =>
                  have hrem := drop_eq_nil_of_getElem_none args st.i ha
                  cases hdefc : pdef with
                  | true =>
                      have hL : mapArgsLoop args kwargs
                            (⟨pname, .positionalOrKeyword, true⟩ :: rest) st =
                          mapArgsLoop args kwargs rest st := by
                        simp only [mapArgsLoop, mapArgsStep]
                        rw [hkwl, ha]
                        rfl
                      obtain ⟨ihE, ihO⟩ := ih st hnd' hdisjR
                      refine ⟨?_, ?_⟩
                      · intro e he
                        rw [hL] at he
                        have hs := ihE e he
                        rw [hrem] at hs
                        rw [spec_map_walk_posOrKw, hkwl, hrem]
                        dsimp only
                        rw [if_pos rfl]
                        exact hs
                      · intro st' ho
                        rw [hL] at ho
                        obtain ⟨out, hk, hseq, hmap, hkw⟩ := ihO st' ho
                        rw [hrem] at hseq
                        refine ⟨out, hk, ?_, hmap, hkw⟩
                        rw [spec_map_walk_posOrKw, hkwl, hrem]
                        dsimp only
                        rw [if_pos rfl]
                        exact hseq
                  | false =>
                      have hL : mapArgsLoop args kwargs
                            (⟨pname, .positionalOrKeyword, false⟩ :: rest)
                            st = .error .indexError := by
                        simp only [mapArgsLoop, mapArgsStep]
                        rw [hkwl, ha]
                        rfl
                      refine ⟨?_, ?_⟩
                      · intro e he
                        rw [spec_map_walk_posOrKw, hkwl, hrem]
                        simp
                      · intro st' ho
                        rw [hL] at ho
                        cases ho
      | keywordOnly =>
          cases hkwl : dictLookup kwargs pname with
          | some v =>
              have hL : mapArgsLoop args kwargs
                    (⟨pname, .keywordOnly, pdef⟩ :: rest) st =
                  mapArgsLoop args kwargs rest
                    ⟨dictInsert st.argsmap pname v, st.i, st.hasKw⟩ := by
                simp only [mapArgsLoop, mapArgsStep]
                rw [hkwl]
              have hkeys1 : dictKeys (dictInsert st.argsmap pname v) =
                  dictKeys st.argsmap ++ [pname] :=
                dictKeys_dictInsert_fresh _ _ _ hpnotin
              have hdisj1 : ∀ k ∈ dictKeys (dictInsert st.argsmap pname v),
                  k ∉ rest.map Param.name := by
                intro k hk
                rw [hkeys1, List.mem_append, List.mem_singleton] at hk
                rcases hk with hk | rfl
                · exact hdisjR k hk
                · exact hpn
              obtain ⟨ihE, ihO⟩ := ih
                ⟨dictInsert st.argsmap pname v, st.i, st.hasKw⟩ hnd' hdisj1
              refine ⟨?_, ?_⟩
              · intro e he
                rw [hL] at he
                have hs := ihE e he
                dsimp only at hs
                rw [hkeys1] at hs
                rw [spec_map_walk_kwOnly, hkwl]
                dsimp only
                rw [hs]
              · intro st' ho
                rw [hL] at ho
                obtain ⟨out, hk, hseq, hmap, hkw⟩ := ihO st' ho
                dsimp only at hseq hmap hkw
                rw [hkeys1] at hseq
                refine ⟨(pname, v) :: out, hk, ?_, ?_, hkw⟩
                · rw [spec_map_walk_kwOnly, hkwl]
                  dsimp only
                  rw [hseq]
                · rw [hmap, dictInsert_eq_append _ _ _ hpnotin,
                    List.append_assoc]
                  rfl
          | none =>
              cases hdefc : pdef with
              | true =>
                  have hL : mapArgsLoop args kwargs
                        (⟨pname, .keywordOnly, true⟩ :: rest) st =
                      mapArgsLoop args kwargs rest st := by
                    simp only [mapArgsLoop, mapArgsStep]
                    rw [hkwl]
                    rfl
                  obtain ⟨ihE, ihO⟩ := ih st hnd' hdisjR
                  refine ⟨?_, ?_⟩
                  · intro e he
                    rw [hL] at he
                    have hs := ihE e he
                    rw [spec_map_walk_kwOnly, hkwl]
                    dsimp only
                    rw [if_pos rfl]
                    exact hs
                  · intro st' ho
                    rw [hL] at ho
                    obtain ⟨out, hk, hseq, hmap, hkw⟩ := ihO st' ho
                    refine ⟨out, hk, ?_, hmap, hkw⟩
                    rw [spec_map_walk_kwOnly, hkwl]
                    dsimp only
                    rw [if_pos rfl]
                    exact hseq
              | false =>
                  have hL : mapArgsLoop args kwargs
                        (⟨pname, .keywordOnly, false⟩ :: rest) st =
                      .error .keyError := by
                    simp only [mapArgsLoop, mapArgsStep]
                    rw [hkwl]
                    rfl
                  refine ⟨?_, ?_⟩
                  · intro e he
                    rw [spec_map_walk_kwOnly, hkwl]
                    simp
                  · intro st' ho
                    rw [hL] at ho
                    cases ho
      | varPositional =>
          have hL : mapArgsLoop args kwargs
                (⟨pname, .varPositional, pdef⟩ :: rest) st =
              mapArgsLoop args kwargs rest
                ⟨dictInsert st.argsmap pname (.tup (args.drop st.i)),
                  st.i + (args.drop st.i).length, st.hasKw⟩ := by
            simp only [mapArgsLoop, mapArgsStep]
          have hdropnil : args.drop (st.i + (args.drop st.i).length) = [] :=
            drop_add_drop_length args st.i
          have hkeys1 : dictKeys (dictInsert st.argsmap pname
                (.tup (args.drop st.i))) =
              dictKeys st.argsmap ++ [pname] :=
            dictKeys_dictInsert_fresh _ _ _ hpnotin
          have hdisj1 : ∀ k ∈ dictKeys (dictInsert st.argsmap pname
              (.tup (args.drop st.i))), k ∉ rest.map Param.name := by
            intro k hk
            rw [hkeys1, List.mem_append, List.mem_singleton] at hk
            rcases hk with hk | rfl
            · exact hdisjR k hk
            · exact hpn
          obtain ⟨ihE, ihO⟩ := ih
            ⟨dictInsert st.argsmap pname (.tup (args.drop st.i)),
              st.i + (args.drop st.i).length, st.hasKw⟩ hnd' hdisj1
          refine ⟨?_, ?_⟩
          · intro e he
            rw [hL] at he
            have hs := ihE e he
            dsimp only at hs
            rw [hdropnil, hkeys1] at hs
            rw [spec_map_walk_varPos]
            rw [hs]
          · intro st' ho
            rw [hL] at ho
            obtain ⟨out, hk, hseq, hmap, hkw⟩ := ihO st' ho
            dsimp only at hseq hmap hkw
            rw [hdropnil, hkeys1] at hseq
            refine ⟨(pname, .tup (args.drop st.i)) :: out, hk, ?_, ?_, hkw⟩
            · rw [spec_map_walk_varPos]
              rw [hseq]
            · rw [hmap, dictInsert_eq_append _ _ _ hpnotin,
                List.append_assoc]
              rfl
      | varKeyword =>
          have hfilter : kwargs.filter
                (fun kv => !dictContains st.argsmap kv.1) =
              kwargs.filter
                (fun kv => decide (kv.1 ∉ dictKeys st.argsmap)) := by
            have hfun : (fun kv : String × PyVal =>
                  !dictContains st.argsmap kv.1) =
                (fun kv : String × PyVal =>
                  decide (kv.1 ∉ dictKeys st.argsmap)) :=
              funext (fun kv => bnot_dictContains_eq st.argsmap kv.1)
            rw [hfun]
          have hL : mapArgsLoop args kwargs
                (⟨pname, .varKeyword, pdef⟩ :: rest) st =
              mapArgsLoop args kwargs rest
                ⟨dictInsert st.argsmap pname
                    (.strdict (kwargs.filter
                      (fun kv => !dictContains st.argsmap kv.1))),
                  st.i, true⟩ := by
            simp only [mapArgsLoop, mapArgsStep]
          have hkeys1 : dictKeys (dictInsert st.argsmap pname
                (.strdict (kwargs.filter
                  (fun kv => !dictContains st.argsmap kv.1)))) =
              dictKeys st.argsmap ++ [pname] :=
            dictKeys_dictInsert_fresh _ _ _ hpnotin
          have hdisj1 : ∀ k ∈ dictKeys (dictInsert st.argsmap pname
              (.strdict (kwargs.filter
                (fun kv => !dictContains st.argsmap kv.1)))),
              k ∉ rest.map Param.name := by
            intro k hk
            rw [hkeys1, List.mem_append, List.mem_singleton] at hk
            rcases hk with hk | rfl
            · exact hdisjR k hk
            · exact hpn
          obtain ⟨ihE, ihO⟩ := ih
            ⟨dictInsert st.argsmap pname
                (.strdict (kwargs.filter
                  (fun kv => !dictContains st.argsmap kv.1))),
              st.i, true⟩ hnd' hdisj1
          refine ⟨?_, ?_⟩
          · intro e he
            rw [hL] at he
            have hs := ihE e he
            dsimp only at hs
            rw [hkeys1] at hs
            rw [spec_map_walk_varKw]
            rw [hs]
          · intro st' ho
            rw [hL] at ho
            obtain ⟨out, hk, hseq, hmap, hkw⟩ := ihO st' ho
            dsimp only at hseq hmap hkw
            rw [hkeys1] at hseq
            refine ⟨(pname, .strdict (kwargs.filter
                (fun kv => decide (kv.1 ∉ dictKeys st.argsmap)))) :: out,
              true, ?_, ?_, ?_⟩
            · rw [spec_map_walk_varKw]
              rw [hseq]
            · rw [hmap, hfilter, dictInsert_eq_append _ _ _ hpnotin,
                List.append_assoc]
              rfl
            · rw [hkw]
              simp

theorem map_function_arguments_eq_spec (ps : List Param) (args : List PyVal)
    (kwargs : List (String × PyVal)) (hnd : (ps.map Param.name).Nodup) :
    map_function_arguments ps args kwargs =
      spec_map_arguments ps args kwargs := by
  obtain ⟨hE, hO⟩ := mapArgsLoop_eq_specWalk args kwargs ps ⟨[], 0, false⟩
    hnd (by intro k hk; cases hk)
  unfold map_function_arguments spec_map_arguments
  cases hloop : mapArgsLoop args kwargs ps ⟨[], 0, false⟩ with
  | error e =>
      have hs := hE e hloop
      dsimp only at hs
      simp only [List.drop_zero, dictKeys, List.map_nil] at hs
      rw [hs]
  | ok stf =>
      obtain ⟨out, hk, hseq, hmap, hkw⟩ := hO stf hloop
      dsimp only at hseq hmap hkw
      simp only [List.drop_zero, dictKeys, List.map_nil] at hseq
      rw [List.nil_append] at hmap
      rw [Bool.false_or] at hkw
      rw [hseq]
      dsimp only
      rw [hmap, hkw]
      by_cases hlt : stf.i < args.length
      · rw [if_pos hlt]
        cases hd : args.drop stf.i with
        | nil =>
            have hlen := congrArg List.length hd
            rw [List.length_drop] at hlen
            simp at hlen
            omega
        | cons a l => rfl
      · rw [if_neg hlt]
        have hdropnil : args.drop stf.i = [] := by
          apply List.drop_eq_nil_of_le
          omega
        rw [hdropnil]

/-- C4 counterexample: for the signature `(x, /)` called as `f(5, x=7)`, the
mapper succeeds and returns `x ↦ 5`, although the named argument `x = 7` is
consumed by nothing and no variadic-mapping parameter exists — by the claim
this call should be a hard failure.  (The excess-keyword check of the source
tests membership of the name among the declared parameters, not whether the
named argument was consumed.) -/
theorem C4_unconsumed_named_counterexample :
    map_function_arguments [⟨"x", .positionalOnly, false⟩] [.int 5]
        [("x", .int 7)] = .ok [("x", .int 5)] ∧
    [Param.mk "x" .positionalOnly false].any
      (fun p => p.kind = .varKeyword) = false ∧
    PyVal.int 7 ≠ PyVal.int 5 := by
  refine ⟨rfl, rfl, ?_⟩
  intro hc
  cases hc

/-- C4 (amended): over a signature with distinct parameter names,
`map_function_arguments` coincides on every input — errors included — with
`spec_map_arguments`, the mapper transcribed from the amended words of spec
§4.1: the declared parameters are walked in order, fixed positional and
unmatched position-or-name parameters consume the positional arguments
left-to-right, a name-matched position-or-name or fixed-by-name parameter
takes the named argument of its name, a variadic-sequence parameter takes
exactly the positional arguments left over, a variadic-mapping parameter
takes exactly the named arguments whose names were not bound before it, a
defaulted parameter whose value is missing is omitted (for every kind), a
missing value elsewhere is a hard failure, an unconsumed positional
argument is a hard failure, and a named argument is a hard failure exactly
when its name is not among the declared parameter names and no
variadic-mapping parameter exists (name membership, not consumption: the
counterexample shows its unconsumed `x = 7` accepted).  So every successful
output binds exactly the declared names that walk computes, with exactly
its values; the second conjunct restates the attribution facts of the
claim directly for the successful runs. -/
theorem C4_argument_mapper (ps : List Param) (args : List PyVal)
    (kwargs : List (String × PyVal))
    (hnd : (ps.map Param.name).Nodup) :
    map_function_arguments ps args kwargs =
      spec_map_arguments ps args kwargs ∧
    (∀ m, map_function_arguments ps args kwargs = .ok m →
      (∀ k ∈ dictKeys m, k ∈ ps.map Param.name) ∧
      (∀ p ∈ ps, p.hasDefault = false → p.name ∈ dictKeys m) ∧
      (∀ p ∈ ps, (p.kind = .varPositional ∨ p.kind = .varKeyword) →
          p.name ∈ dictKeys m) ∧
      (∀ p ∈ ps, p.kind = .keywordOnly → dictLookup kwargs p.name = none →
          p.name ∉ dictKeys m) ∧
      (∀ p ∈ ps, p.kind = .keywordOnly → ∀ v, dictLookup m p.name = some v →
          dictLookup kwargs p.name = some v) ∧
      (∀ p ∈ ps, p.kind = .positionalOrKeyword → ∀ w,
          dictLookup kwargs p.name = some w → dictLookup m p.name = some w) ∧
      (∀ p ∈ ps, (p.kind = .positionalOnly ∨
          (p.kind = .positionalOrKeyword ∧ dictLookup kwargs p.name = none)) →
          ∀ v, dictLookup m p.name = some v →
          ∃ j, j < args.length ∧ args[j]? = some v) ∧
      (∀ kv ∈ kwargs, ps.any (fun p => p.kind = .varKeyword) = true ∨
          kv.1 ∈ ps.map Param.name)) := by
  refine ⟨map_function_arguments_eq_spec ps args kwargs hnd, ?_⟩
  intro m hm
  unfold map_function_arguments at hm
  cases hloop : mapArgsLoop args kwargs ps ⟨[], 0, false⟩ with
  | error e => rw [hloop] at hm; cases hm
  | ok stf =>
      rw [hloop] at hm
      dsimp only at hm
      by_cases hpos : stf.i < args.length
      · rw [if_pos hpos] at hm; cases hm
      · rw [if_neg hpos] at hm
        by_cases hkg : (!stf.hasKw &&
            !(kwargs.all (fun kv => ps.any (fun p => p.name = kv.1)))) = true
        · rw [if_pos hkg] at hm; cases hm
        · rw [if_neg hkg] at hm
          cases hm
          obtain ⟨i1, i2, i3, i4, i5, i6, i7, i8, i9, i10, i11⟩ :=
            mapArgsLoop_invariant args kwargs ps stf ⟨[], 0, false⟩ hnd
              (by intro k hk; cases hk) hloop
          refine ⟨?_, i3, i4, i5, i6, i7, i8, ?_⟩
          · intro k hk
            rcases i1 k hk with h1 | h1
            · cases h1
            · exact h1
          · intro kv hkv
            cases hhk : stf.hasKw with
            | true =>
                left
                have h0 : stf.hasKw =
                    ps.any (fun p => p.kind = .varKeyword) := by
                  rw [i9]
                  simp
                rw [← h0]
                exact hhk
            | false =>
                right
                cases hA : kwargs.all
                    (fun kv => ps.any (fun p => p.name = kv.1)) with
                | false => exact absurd (by rw [hhk, hA]; rfl) hkg
                | true =>
                    have hf := List.all_eq_true.mp hA kv hkv
                    obtain ⟨q, hq, hqn⟩ := List.any_eq_true.mp hf
                    rw [List.mem_map]
                    exact ⟨q, hq, of_decide_eq_true hqn⟩

/-- C4 witness: the refinement evaluated at the signature
`(a, b=default, *v, k=default, **w)` called as `f(1, 2, 3, 4, z=9)`: the
source mapper and the specification-side mapper agree, the common output
binds `a` and `b` to the first two positional arguments in declaration
order, the variadic-sequence parameter to exactly the two leftover
positional arguments, the variadic-mapping parameter to exactly the
unclaimed named argument, and the defaulted fixed-by-name parameter `k`,
whose value is absent, is omitted. -/
theorem C4_argument_mapper_witness :
    map_function_arguments
        [⟨"a", .positionalOnly, false⟩, ⟨"b", .positionalOrKeyword, true⟩,
          ⟨"v", .varPositional, false⟩, ⟨"k", .keywordOnly, true⟩,
          ⟨"w", .varKeyword, false⟩]
        [.int 1, .int 2, .int 3, .int 4] [("z", .int 9)] =
      spec_map_arguments
        [⟨"a", .positionalOnly, false⟩, ⟨"b", .positionalOrKeyword, true⟩,
          ⟨"v", .varPositional, false⟩, ⟨"k", .keywordOnly, true⟩,
          ⟨"w", .varKeyword, false⟩]
        [.int 1, .int 2, .int 3, .int 4] [("z", .int 9)] ∧
    spec_map_arguments
        [⟨"a", .positionalOnly, false⟩, ⟨"b", .positionalOrKeyword, true⟩,
          ⟨"v", .varPositional, false⟩, ⟨"k", .keywordOnly, true⟩,
          ⟨"w", .varKeyword, false⟩]
        [.int 1, .int 2, .int 3, .int 4] [("z", .int 9)] =
      .ok [("a", .int 1), ("b", .int 2), ("v", .tup [.int 3, .int 4]),
        ("w", .strdict [("z", .int 9)])] ∧
    "k" ∉ dictKeys [("a", PyVal.int 1), ("b", PyVal.int 2),
      ("v", PyVal.tup [.int 3, .int 4]),
      ("w", PyVal.strdict [("z", PyVal.int 9)])] := by
  refine ⟨(C4_argument_mapper
      [⟨"a", .positionalOnly, false⟩, ⟨"b", .positionalOrKeyword, true⟩,
        ⟨"v", .varPositional, false⟩, ⟨"k", .keywordOnly, true⟩,
        ⟨"w", .varKeyword, false⟩]
      [.int 1, .int 2, .int 3, .int 4] [("z", .int 9)] (by simp)).1,
    rfl, ?_⟩
  simp [dictKeys]

theorem assert_contract_raise (s : EvaluationSemantic) (hs : s ≠ .ignore)
    (k : AssertionKind) (loc : Option String) (e : PyError)
    (kw : List (String × PyVal)) (handler : Handler) :
    assert_contract s k loc (fun _ => .error e) kw handler =
      (.error e, ⟨true, false, none⟩) := by
  unfold assert_contract
  simp [hs]

theorem assert_contract_predicateInvoked (s : EvaluationSemantic)
    (k : AssertionKind) (loc : Option String)
    (p : List (String × PyVal) → Except PyError Bool)
    (kw : List (String × PyVal)) (handler : Handler) :
    (assert_contract s k loc p kw handler).2.predicateInvoked =
      decide (s ≠ .ignore) := by
  unfold assert_contract
  by_cases hs : s = EvaluationSemantic.ignore
  · simp [hs]
  · simp only [hs, if_false, if_neg hs]
    match p kw with
    | .error e => simp [hs]
    | .ok b =>
        by_cases hb : b
        · simp [hb, hs]
        · simp only [hb, if_false, if_neg hb]
          match hcv : handle_contract_violation s k loc "" handler with
          | (res, viol, hInvoked) => simp [hs]

/-- C1: for a falsy predicate result under the observe or the enforce
semantic, `__handle_contract_violation` does construct the ContractViolation,
but the dispatch guard compares the semantic against
`EvaluationSemantic.check`, a member that the EvaluationSemantic enumeration
of the source tree does not have; the attribute access raises AttributeError,
the registered handler is never invoked, and the AttributeError (not a
handler error) propagates to the caller.  This contradicts the claim (and
the enumeration's own documentation, and the expectations of
tests/test_decorators.py, which registers a raising handler under observe). -/
theorem C1_handler_dispatch_code_bug : ∀ handler : Handler,
    assert_contract .observe .pre none (fun _ => .ok false) [] handler =
      (.error (.attributeError "EvaluationSemantic has no member named check"),
       ⟨true, false, some ⟨"", .pre, none, .observe⟩⟩) ∧
    assert_contract .enforce .post none (fun _ => .ok false) [] handler =
      (.error (.attributeError "EvaluationSemantic has no member named check"),
       ⟨true, false, some ⟨"", .post, none, .enforce⟩⟩) := by
  intro handler
  exact ⟨rfl, rfl⟩

/-- C2 counterexample: a predicate that raises under a non-ignore semantic
has its exception propagate directly to the caller; no ContractViolation is
constructed, the handler is not invoked, and there is no record preserving
the cause — contrary to the claim that the outcome is treated as a violation
with the error preserved and not re-raised. -/
theorem C2_predicate_raise_counterexample :
    assert_contract .observe .pre none
      (fun _ => .error (.raised "ValueError: boom")) []
      (fun _ => .ok ()) =
      (.error (.raised "ValueError: boom"), ⟨true, false, none⟩) := rfl

/-- C2 (amended): for every contract evaluation whose predicate raises, under
any non-ignore semantic, `assert_contract` lets the raised error propagate
unchanged to the caller; no ContractViolation is constructed and the
violation handler is never invoked. -/
theorem C2_predicate_raise_propagates (s : EvaluationSemantic)
    (hs : s ≠ .ignore) (k : AssertionKind) (loc : Option String)
    (e : PyError) (kw : List (String × PyVal)) (handler : Handler) :
    assert_contract s k loc (fun _ => .error e) kw handler =
      (.error e, ⟨true, false, none⟩) :=
  assert_contract_raise s hs k loc e kw handler

/-- C2 witness: the amended statement evaluated at a concrete raising
predicate under the observe semantic. -/
theorem C2_predicate_raise_propagates_witness :
    assert_contract .observe .post none
      (fun _ => .error (.raised "ValueError: witness")) []
      (fun _ => .ok ()) =
      (.error (.raised "ValueError: witness"), ⟨true, false, none⟩) :=
  C2_predicate_raise_propagates .observe (by decide) .post none
    (.raised "ValueError: witness") [] (fun _ => .ok ())

/-- C3: when the semantic resolved at declaration time is ignore,
`pre.__call__` returns the original callable object unchanged (given that
the declaration-time well-formedness check passes), and `assert_contract`
returns without ever invoking the predicate.  The wrap decision depends only
on the semantic stored at declaration time — `pre_call` takes no call-time
input at all. -/
theorem C3_ignore_returns_original {F : Type} (d : PreData)
    (hd : d.semantic = .ignore) (funcParams : List Param)
    (parentLocalNames parentGlobalNames : List String) (func : F)
    (hwf : assert_predicate_well_formed d.predParams
      (dictUnion (dictUnion (funcParams.map (fun p => (p.name, p.name)))
        d.capture) d.clone)
      (funcParams.map Param.name ++ parentLocalNames ++ parentGlobalNames) =
      .ok ()) :
    pre_call d funcParams parentLocalNames parentGlobalNames func =
      .ok (.original func) ∧
    ∀ (k : AssertionKind) (loc : Option String)
      (p : List (String × PyVal) → Except PyError Bool)
      (kw : List (String × PyVal)) (handler : Handler),
      assert_contract d.semantic k loc p kw handler =
        (.ok (), ⟨false, false, none⟩) := by
  constructor
  · simp only [pre_call]
    rw [hwf, hd]
    simp
  · intro k loc p kw handler
    unfold assert_contract
    rw [hd]
    simp

/-- C3 witness: a concrete precondition declaration under the ignore
semantic, with a well-formed predicate, wraps to the original function. -/
theorem C3_ignore_returns_original_witness :
    pre_call (F := Nat) ⟨[("x", .positionalOrKeyword)], [], [], .ignore⟩
        [⟨"x", .positionalOrKeyword, false⟩] [] [] 42 =
      .ok (.original 42) ∧
    assert_contract .ignore .pre none (fun _ => .ok false) []
        (fun _ => .ok ()) = (.ok (), ⟨false, false, none⟩) := by
  have h := C3_ignore_returns_original (F := Nat)
    ⟨[("x", .positionalOrKeyword)], [], [], .ignore⟩ rfl
    [⟨"x", .positionalOrKeyword, false⟩] [] [] 42 rfl
  exact ⟨h.1, h.2 .pre none (fun _ => .ok false) [] (fun _ => .ok ())⟩

/-- C7 counterexample: a keyword-only (fixed-by-name) predicate parameter is
rejected with the invalid-kind TypeError even when it is bound and in scope,
although the claim says parameters of that kind are accepted. -/
theorem C7_keyword_only_rejected :
    assert_predicate_well_formed [("x", .keywordOnly)] [("x", "x")] ["x"] =
      .error (.typeError "Predicate parameter \x22x\x22 is of invalid kind") :=
  rfl

/-- C7 (amended): predicate validation accepts exactly the predicates all of
whose parameters are of kind position-or-name, bound, and resolving to a
name in scope; parameters of any other kind — keyword-only included, not
just the variadic and positional-only kinds — are rejected with a TypeError
at declaration time. -/
theorem C7_kind_validation (ps : List (String × ParamKind))
    (bs : List (String × String)) (scope : List String) :
    assert_predicate_well_formed ps bs scope = .ok () ↔
      ∀ p ∈ ps, p.2 = .positionalOrKeyword ∧
        ∃ src, dictLookup bs p.1 = some src ∧ src ∈ scope := by
  induction ps with
  | nil => simp [assert_predicate_well_formed]
  | cons hd tl ih =>
      obtain ⟨name, kind⟩ := hd
      unfold assert_predicate_well_formed
      cases kind with
      | positionalOrKeyword =>
          cases hlk : dictLookup bs name with
          | none => simp [hlk]
          | some src =>
              by_cases hsc : src ∈ scope
              · simp [hlk, hsc, ih]
              · simp [hlk, hsc]
      | positionalOnly => simp
      | keywordOnly => simp
      | varPositional => simp
      | varKeyword => simp

/-- C9: every use of the `contract_evaluation_semantics` context manager
raises TypeError on entry: `__enter__` forwards an `assertion=` keyword
argument that the declared parameter list of
`set_contract_evaluation_semantics` does not contain.  No scoped override of
the semantics table ever takes place, so the claimed push/pop behaviour is
unreachable. -/
theorem C9_scoped_override_code_bug :
    ∀ (cm : ContractEvaluationSemanticsCM) (table : SemTable),
      contract_evaluation_semantics_enter cm table =
        .error (.typeError
          "set_contract_evaluation_semantics got an unexpected keyword argument assertion") :=
  fun _ _ => rfl

/-- C8: result-parameter inference.  The candidates are exactly the
predicate parameters left unbound by the capture/clone sets; no candidate
means no result parameter, a single candidate is inferred as the result
parameter, and two or more candidates raise a TypeError whose message names
every candidate. -/
theorem C8_result_param_inference (pred_params bindings : List String) :
    (pred_params.filter (fun n => !bindings.contains n) = [] →
        find_result_param pred_params bindings = .ok none) ∧
    (∀ c, pred_params.filter (fun n => !bindings.contains n) = [c] →
        find_result_param pred_params bindings = .ok (some c)) ∧
    (∀ c1 c2 rest,
        pred_params.filter (fun n => !bindings.contains n) = c1 :: c2 :: rest →
        find_result_param pred_params bindings =
          .error (.typeError
            ("Unable to determine predicate result parameter. Candidates: " ++
              String.intercalate "," (c1 :: c2 :: rest)))) := by
  refine ⟨?_, ?_, ?_⟩
  · intro hf
    unfold find_result_param
    rw [hf]
  · intro c hf
    unfold find_result_param
    rw [hf]
  · intro c1 c2 rest hf
    unfold find_result_param
    rw [hf]

/-- C8 witness: inference evaluated at concrete inputs covering the three
cases. -/
theorem C8_result_param_inference_witness :
    find_result_param ["x", "r"] ["x"] = .ok (some "r") ∧
    find_result_param ["a", "b"] ["z"] =
      .error (.typeError
        ("Unable to determine predicate result parameter. Candidates: " ++
          String.intercalate "," ["a", "b"])) ∧
    find_result_param ["x"] ["x"] = .ok none :=
  ⟨(C8_result_param_inference ["x", "r"] ["x"]).2.1 "r" rfl,
   (C8_result_param_inference ["a", "b"] ["z"]).2.2 "a" "b" [] rfl,
   (C8_result_param_inference ["x"] ["x"]).1 rfl⟩

/-- C10 counterexample: with the ignore semantic in effect, `post.__exit__`
resolves the after-type bindings but does not evaluate the predicate
(`assert_contract` returns before invoking it), contrary to the claim that
`__exit__` evaluates the predicate. -/
theorem C10_exit_ignore_counterexample :
    post_exit 1 ⟨[], 0⟩ ⟨[], [], [], [], [], none, .ignore⟩ ⟨[[], []], []⟩
        none (fun _ => .ok false) (fun _ => .ok ()) =
      (.ok ⟨[], 0⟩, ⟨false, false, none⟩) := rfl

/-- C10 (amended): when a result parameter was inferred, `post.__enter__`
raises a TypeError naming it before any binding resolution (and the
predicate, which `post_enter` cannot even reach, is never evaluated in that
scope); when none was inferred, `__enter__` resolves exactly the before-type
bindings, and `__exit__` resolves the after-type bindings and asserts the
contract on the merged mapping — which evaluates the predicate exactly when
the resolved semantic is not ignore. -/
theorem C10_context_manager_flow (fuel : Nat) (h : Heap) (d : PostData)
    (parentLocals parentGlobals : List (String × PyVal)) :
    (∀ name, d.resultParam = some name →
      post_enter fuel h d parentLocals parentGlobals =
        (.error (.typeError
          ("Postcondition refers to result \x22" ++ name ++
            "\x22, but usage as context manager precludes result parameter usage")),
         false)) ∧
    (d.resultParam = none →
      ∀ r h', resolve_bindings fuel h [parentLocals, parentGlobals]
          d.captureBefore d.cloneBefore = .ok (r, h') →
        post_enter fuel h d parentLocals parentGlobals =
          (.ok (⟨[parentLocals, parentGlobals], r⟩, h'), true)) ∧
    (∀ (st : PostCMState) (loc : Option String)
        (pred : List (String × PyVal) → Except PyError Bool)
        (handler : Handler) (after : List (String × PyVal)) (h' : Heap),
      resolve_bindings fuel h st.candidates d.captureAfter d.cloneAfter =
        .ok (after, h') →
      post_exit fuel h d st loc pred handler =
        ((assert_contract d.semantic .post loc pred
            (dictUnion st.resolvedKwargs after) handler).1.map (fun _ => h'),
         (assert_contract d.semantic .post loc pred
            (dictUnion st.resolvedKwargs after) handler).2) ∧
      (d.semantic = .ignore →
        (post_exit fuel h d st loc pred handler).2.predicateInvoked = false) ∧
      (d.semantic ≠ .ignore →
        (post_exit fuel h d st loc pred handler).2.predicateInvoked = true)) := by
  refine ⟨?_, ?_, ?_⟩
  · intro name hname
    unfold post_enter
    rw [hname]
  · intro hnone r h' hres
    unfold post_enter
    rw [hnone]
    simp only [hres]
  · intro st loc pred handler after h' hres
    have hexit : post_exit fuel h d st loc pred handler =
        ((assert_contract d.semantic .post loc pred
            (dictUnion st.resolvedKwargs after) handler).1.map (fun _ => h'),
         (assert_contract d.semantic .post loc pred
            (dictUnion st.resolvedKwargs after) handler).2) := by
      unfold post_exit
      rw [hres]
      match hac : assert_contract d.semantic .post loc pred
          (dictUnion st.resolvedKwargs after) handler with
      | (.ok u, tr) => simp [hac, Except.map]
      | (.error e, tr) => simp [hac, Except.map]
    refine ⟨hexit, ?_, ?_⟩
    · intro hig
      rw [hexit]
      simp [assert_contract_predicateInvoked, hig]
    · intro hnig
      rw [hexit]
      simp [assert_contract_predicateInvoked, hnig]

/-- C10 witness: the amended flow evaluated at concrete postcondition
declarations — one with an inferred result parameter (entry rejected), one
without (before/after resolution and a predicate evaluation under a
non-ignore semantic). -/
theorem C10_context_manager_flow_witness :
    post_enter 1 ⟨[], 0⟩ ⟨["r"], [], [], [], [], some "r", .observe⟩ [] [] =
      (.error (.typeError
        ("Postcondition refers to result \x22r\x22, but usage as context manager precludes result parameter usage")),
       false) ∧
    post_enter 1 ⟨[], 0⟩ ⟨[], [], [], [], [], none, .observe⟩ [] [] =
      (.ok (⟨[[], []], []⟩, ⟨[], 0⟩), true) ∧
    (post_exit 1 ⟨[], 0⟩ ⟨[], [], [], [], [], none, .observe⟩ ⟨[[], []], []⟩
        none (fun _ => .ok true) (fun _ => .ok ())).2.predicateInvoked =
      true := by
  refine ⟨?_, ?_, ?_⟩
  · exact (C10_context_manager_flow 1 ⟨[], 0⟩
      ⟨["r"], [], [], [], [], some "r", .observe⟩ [] []).1 "r" rfl
  · exact (C10_context_manager_flow 1 ⟨[], 0⟩
      ⟨[], [], [], [], [], none, .observe⟩ [] []).2.1 rfl [] ⟨[], 0⟩ rfl
  · exact ((C10_context_manager_flow 1 ⟨[], 0⟩
      ⟨[], [], [], [], [], none, .observe⟩ [] []).2.2 ⟨[[], []], []⟩ none
      (fun _ => .ok true) (fun _ => .ok ()) [] ⟨[], 0⟩ rfl).2.2 (by decide)

theorem resolveBinding_spec (candidates : List (List (String × PyVal)))
    (name : String) :
    resolveBinding candidates name =
      match candidates.findSome? (fun s => dictLookup s name) with
      | some v => .ok v
      | none =>
          .error (.valueError ("Invalid binding \x22" ++ name ++ "\x22")) := by
  induction candidates with
  | nil => rfl
  | cons s rest ih =>
      unfold resolveBinding
      rw [List.findSome?_cons]
      cases dictLookup s name <;> simp [ih]

theorem resolveCaptures_forall (candidates : List (List (String × PyVal)))
    (capture : List (String × String)) (r : List (String × PyVal))
    (hr : resolveCaptures candidates capture = .ok r) :
    List.Forall₂
      (fun (kv : String × String) (rv : String × PyVal) =>
        rv.1 = kv.1 ∧
          candidates.findSome? (fun s => dictLookup s kv.2) = some rv.2)
      capture r := by
  induction capture generalizing r with
  | nil =>
      unfold resolveCaptures at hr
      cases hr
      exact List.Forall₂.nil
  | cons kv rest ih =>
      unfold resolveCaptures at hr
      obtain ⟨k, src⟩ := kv
      simp only [bind, Except.bind] at hr
      cases hb : resolveBinding candidates src with
      | error e => rw [hb] at hr; cases hr
      | ok v =>
          rw [hb] at hr
          cases hrest : resolveCaptures candidates rest with
          | error e => rw [hrest] at hr; cases hr
          | ok m =>
              rw [hrest] at hr
              cases hr
              refine List.Forall₂.cons ⟨rfl, ?_⟩ (ih m hrest)
              have := resolveBinding_spec candidates src
              rw [hb] at this
              cases hfs : candidates.findSome? (fun s => dictLookup s src) with
              | none => rw [hfs] at this; cases this
              | some w => rw [hfs] at this; cases this; rfl

/-- C5: binding resolution.  `__resolve_binding` returns the value from the
first candidate scope containing the requested name and raises ValueError
naming the binding when no scope contains it; `resolve_bindings` binds every
capture entry to exactly that first-scope value; and inside the checked-call
flow a binding-resolution error propagates before the predicate or the
wrapped function is ever invoked. -/
theorem C5_binding_resolution (candidates : List (List (String × PyVal)))
    (name : String) :
    (∀ v, candidates.findSome? (fun s => dictLookup s name) = some v →
        resolveBinding candidates name = .ok v) ∧
    (candidates.findSome? (fun s => dictLookup s name) = none →
        resolveBinding candidates name =
          .error (.valueError ("Invalid binding \x22" ++ name ++ "\x22"))) ∧
    (∀ capture r, resolveCaptures candidates capture = .ok r →
        List.Forall₂
          (fun (kv : String × String) (rv : String × PyVal) =>
            rv.1 = kv.1 ∧
              candidates.findSome? (fun s => dictLookup s kv.2) = some rv.2)
          capture r) ∧
    (∀ (fuel : Nat) (h : Heap) (d : PreData) (funcSig : List Param)
        (parentLocals parentGlobals : List (String × PyVal))
        (loc : Option String)
        (pred : List (String × PyVal) → Except PyError Bool)
        (handler : Handler)
        (func : List PyVal → List (String × PyVal) → Except PyError PyVal)
        (args : List PyVal) (kwargs : List (String × PyVal))
        (nk : List (String × PyVal)) (e : PyError),
      map_function_arguments funcSig args kwargs = .ok nk →
      resolve_bindings fuel h [nk, parentLocals, parentGlobals]
          (dictUnion (d.predParams.map (fun p => (p.1, p.1))) d.capture)
          d.clone = .error e →
      pre_checked_call fuel h d funcSig parentLocals parentGlobals loc pred
          handler func args kwargs = (.error e, ⟨false, false⟩)) := by
  refine ⟨?_, ?_, ?_, ?_⟩
  · intro v hfs
    rw [resolveBinding_spec, hfs]
  · intro hfs
    rw [resolveBinding_spec, hfs]
  · intro capture r hr
    exact resolveCaptures_forall candidates capture r hr
  · intro fuel h d funcSig parentLocals parentGlobals loc pred handler func
      args kwargs nk e hmap hres
    unfold pre_checked_call
    rw [hmap]
    simp only [hres]

/-- C5 witness: resolution against two scopes where the inner scope shadows
the outer one; an unresolvable name; and the checked-call flow aborting on a
binding error with neither the predicate nor the wrapped function invoked. -/
theorem C5_binding_resolution_witness :
    resolveBinding [[("x", .int 1)], [("x", .int 2), ("y", .int 3)]] "x" =
      .ok (.int 1) ∧
    resolveBinding [[("x", .int 1)], [("x", .int 2), ("y", .int 3)]] "z" =
      .error (.valueError ("Invalid binding \x22" ++ "z" ++ "\x22")) ∧
    pre_checked_call 1 ⟨[], 0⟩ ⟨[("q", .positionalOrKeyword)], [], [], .observe⟩
        [] [] [] none (fun _ => .ok true) (fun _ => .ok ())
        (fun _ _ => .ok (.int 0)) [] [] =
      (.error (.valueError ("Invalid binding \x22" ++ "q" ++ "\x22")),
       ⟨false, false⟩) := by
  obtain ⟨h1, h2, _, _⟩ :=
    C5_binding_resolution [[("x", .int 1)], [("x", .int 2), ("y", .int 3)]] "x"
  obtain ⟨_, h2', _, h4⟩ :=
    C5_binding_resolution [[("x", .int 1)], [("x", .int 2), ("y", .int 3)]] "z"
  refine ⟨h1 (.int 1) rfl, h2' rfl, ?_⟩
  exact (C5_binding_resolution [] "q").2.2.2 1 ⟨[], 0⟩
    ⟨[("q", .positionalOrKeyword)], [], [], .observe⟩ [] [] [] none
    (fun _ => .ok true) (fun _ => .ok ()) (fun _ _ => .ok (.int 0)) [] [] []
    (.valueError ("Invalid binding \x22" ++ "q" ++ "\x22")) rfl rfl

theorem Heap.next_store (h : Heap) (a : Nat) (o : List PyVal) :
    (h.store a o).next = h.next := rfl

theorem Heap.lookup_store_self (h : Heap) (a : Nat) (o : List PyVal) :
    (h.store a o).lookup a = some o := by
  show ((storeData h.data a o).find? (fun e => e.1 = a)).map (fun e => e.2) =
    some o
  induction h.data with
  | nil => simp [storeData]
  | cons e rest ih =>
      obtain ⟨b, obj⟩ := e
      unfold storeData
      by_cases hb : b = a
      · subst hb
        simp
      · simp only [if_neg hb, List.find?_cons]
        simpa [hb] using ih

theorem Heap.lookup_store_other (h : Heap) (a b : Nat) (o : List PyVal)
    (hne : a ≠ b) : (h.store b o).lookup a = h.lookup a := by
  show ((storeData h.data b o).find? (fun e => e.1 = a)).map (fun e => e.2) =
    (h.data.find? (fun e => e.1 = a)).map (fun e => e.2)
  induction h.data with
  | nil => simp [storeData, Ne.symm hne]
  | cons e rest ih =>
      obtain ⟨c, obj⟩ := e
      unfold storeData
      by_cases hc : c = b
      · subst hc
        simp [List.find?_cons, Ne.symm hne]
      · by_cases hca : c = a
        · subst hca
          simp [hc, List.find?_cons]
        · simp [hc, hca, List.find?_cons, ih]

theorem storeData_keys_sub (l : List (Nat × List PyVal)) (a : Nat)
    (o : List PyVal) :
    ∀ e ∈ storeData l a o, e.1 ∈ l.map Prod.fst ∨ e.1 = a := by
  induction l with
  | nil =>
      intro e he
      simp [storeData] at he
      simp [he]
  | cons f rest ih =>
      intro e he
      obtain ⟨c, obj⟩ := f
      unfold storeData at he
      by_cases hc : c = a
      · subst hc
        rcases List.mem_cons.mp (by simpa using he) with rfl | he'
        · exact Or.inr rfl
        · exact Or.inl (by simp; right; exact ⟨e.2, he'⟩)
      · simp only [if_neg hc] at he
        rcases List.mem_cons.mp he with rfl | he'
        · exact Or.inl (by simp)
        · rcases ih e he' with h1 | h1
          · exact Or.inl (by simp at h1 ⊢; tauto)
          · exact Or.inr h1

theorem Heap.wf_store (h : Heap) (a : Nat) (o : List PyVal) (hwf : h.wf)
    (ha : a < h.next) : (h.store a o).wf := by
  intro e he
  rw [Heap.next_store]
  rcases storeData_keys_sub h.data a o e he with h1 | h1
  · obtain ⟨f, hf, hfe⟩ := List.mem_map.mp h1
    have := hwf f hf
    omega
  · omega

mutual

theorem ValOk_mono (P Q : Nat → Prop) (hPQ : ∀ a, P a → Q a) (fuel : Nat)
    (h : Heap) (v : PyVal) (hv : ValOk P fuel h v) : ValOk Q fuel h v := by
  match fuel, v with
  | fuel, .int z => simp only [ValOk]
  | fuel, .tup xs =>
      simp only [ValOk] at hv ⊢
      exact ValOkList_mono P Q hPQ fuel h xs hv
  | fuel, .strdict kvs =>
      simp only [ValOk] at hv ⊢
      exact ValOkKVs_mono P Q hPQ fuel h kvs hv
  | 0, .ref a =>
      simp only [ValOk] at hv
  | fuel + 1, .ref a =>
      simp only [ValOk] at hv ⊢
      obtain ⟨hPa, obj, hobj, hlist⟩ := hv
      exact ⟨hPQ a hPa, obj, hobj, ValOkList_mono P Q hPQ fuel h obj hlist⟩
termination_by (fuel, sizeOf v)

theorem ValOkList_mono (P Q : Nat → Prop) (hPQ : ∀ a, P a → Q a)
    (fuel : Nat) (h : Heap) (xs : List PyVal) (hv : ValOkList P fuel h xs) :
    ValOkList Q fuel h xs := by
  match xs with
  | [] => simp only [ValOkList]
  | x :: rest =>
      simp only [ValOkList] at hv ⊢
      exact ⟨ValOk_mono P Q hPQ fuel h x hv.1,
        ValOkList_mono P Q hPQ fuel h rest hv.2⟩
termination_by (fuel, sizeOf xs)

theorem ValOkKVs_mono (P Q : Nat → Prop) (hPQ : ∀ a, P a → Q a)
    (fuel : Nat) (h : Heap) (kvs : List (String × PyVal))
    (hv : ValOkKVs P fuel h kvs) : ValOkKVs Q fuel h kvs := by
  match kvs with
  | [] => simp only [ValOkKVs]
  | (k, x) :: rest =>
      simp only [ValOkKVs] at hv ⊢
      exact ⟨ValOk_mono P Q hPQ fuel h x hv.1,
        ValOkKVs_mono P Q hPQ fuel h rest hv.2⟩
termination_by (fuel, sizeOf kvs)

end

mutual

theorem ValOk_transfer (P : Nat → Prop) (fuel : Nat) (h h' : Heap)
    (hag : ∀ a obj, P a → h.lookup a = some obj → h'.lookup a = some obj)
    (v : PyVal) (hv : ValOk P fuel h v) : ValOk P fuel h' v := by
  match fuel, v with
  | fuel, .int z => simp only [ValOk]
  | fuel, .tup xs =>
      simp only [ValOk] at hv ⊢
      exact ValOkList_transfer P fuel h h' hag xs hv
  | fuel, .strdict kvs =>
      simp only [ValOk] at hv ⊢
      exact ValOkKVs_transfer P fuel h h' hag kvs hv
  | 0, .ref a => simp only [ValOk] at hv
  | fuel + 1, .ref a =>
      simp only [ValOk] at hv ⊢
      obtain ⟨hPa, obj, hobj, hlist⟩ := hv
      exact ⟨hPa, obj, hag a obj hPa hobj,
        ValOkList_transfer P fuel h h' hag obj hlist⟩
termination_by (fuel, sizeOf v)

theorem ValOkList_transfer (P : Nat → Prop) (fuel : Nat) (h h' : Heap)
    (hag : ∀ a obj, P a → h.lookup a = some obj → h'.lookup a = some obj)
    (xs : List PyVal) (hv : ValOkList P fuel h xs) :
    ValOkList P fuel h' xs := by
  match xs with
  | [] => simp only [ValOkList]
  | x :: rest =>
      simp only [ValOkList] at hv ⊢
      exact ⟨ValOk_transfer P fuel h h' hag x hv.1,
        ValOkList_transfer P fuel h h' hag rest hv.2⟩
termination_by (fuel, sizeOf xs)

theorem ValOkKVs_transfer (P : Nat → Prop) (fuel : Nat) (h h' : Heap)
    (hag : ∀ a obj, P a → h.lookup a = some obj → h'.lookup a = some obj)
    (kvs : List (String × PyVal)) (hv : ValOkKVs P fuel h kvs) :
    ValOkKVs P fuel h' kvs := by
  match kvs with
  | [] => simp only [ValOkKVs]
  | (k, x) :: rest =>
      simp only [ValOkKVs] at hv ⊢
      exact ⟨ValOk_transfer P fuel h h' hag x hv.1,
        ValOkKVs_transfer P fuel h h' hag rest hv.2⟩
termination_by (fuel, sizeOf kvs)

end

mutual

theorem readVal_agree (P : Nat → Prop) (fuel : Nat) (h h' : Heap)
    (hag : ∀ a obj, P a → h.lookup a = some obj → h'.lookup a = some obj)
    (v : PyVal) (hv : ValOk P fuel h v) :
    ∀ F, readVal F h' v = readVal F h v := by
  match fuel, v with
  | fuel, .int z => intro F; cases F <;> simp only [readVal]
  | fuel, .tup xs =>
      intro F
      simp only [ValOk] at hv
      have := readValList_agree P fuel h h' hag xs hv F
      cases F <;> simp only [readVal] <;> rw [this]
  | fuel, .strdict kvs =>
      intro F
      simp only [ValOk] at hv
      have := readValKVs_agree P fuel h h' hag kvs hv F
      cases F <;> simp only [readVal] <;> rw [this]
  | 0, .ref a => simp only [ValOk] at hv
  | fuel + 1, .ref a =>
      intro F
      simp only [ValOk] at hv
      obtain ⟨hPa, obj, hobj, hlist⟩ := hv
      cases F with
      | zero => simp only [readVal]
      | succ F' =>
          simp only [readVal, hobj, hag a obj hPa hobj]
          rw [readValList_agree P fuel h h' hag obj hlist F']
termination_by (fuel, sizeOf v)

theorem readValList_agree (P : Nat → Prop) (fuel : Nat) (h h' : Heap)
    (hag : ∀ a obj, P a → h.lookup a = some obj → h'.lookup a = some obj)
    (xs : List PyVal) (hv : ValOkList P fuel h xs) :
    ∀ F, readValList F h' xs = readValList F h xs := by
  match xs with
  | [] => intro F; simp only [readValList]
  | x :: rest =>
      intro F
      simp only [ValOkList] at hv
      simp only [readValList]
      rw [readVal_agree P fuel h h' hag x hv.1 F,
        readValList_agree P fuel h h' hag rest hv.2 F]
termination_by (fuel, sizeOf xs)

theorem readValKVs_agree (P : Nat → Prop) (fuel : Nat) (h h' : Heap)
    (hag : ∀ a obj, P a → h.lookup a = some obj → h'.lookup a = some obj)
    (kvs : List (String × PyVal)) (hv : ValOkKVs P fuel h kvs) :
    ∀ F, readValKVs F h' kvs = readValKVs F h kvs := by
  match kvs with
  | [] => intro F; simp only [readValKVs]
  | (k, x) :: rest =>
      intro F
      simp only [ValOkKVs] at hv
      simp only [readValKVs]
      rw [readVal_agree P fuel h h' hag x hv.1 F,
        readValKVs_agree P fuel h h' hag rest hv.2 F]
termination_by (fuel, sizeOf kvs)

end

mutual

theorem deepcopy_spec (fuel : Nat) (v : PyVal) (h : Heap) (v' : PyVal)
    (h' : Heap) (hwf : h.wf) (hc : deepcopy fuel v h = .ok (v', h')) :
    h'.wf ∧ h.next ≤ h'.next ∧
    (∀ a, a < h.next → h'.lookup a = h.lookup a) ∧
    ValOk (fun a => h.next ≤ a ∧ a < h'.next) fuel h' v' := by
  match fuel, v with
  | fuel, .int z =>
      simp only [deepcopy] at hc
      cases hc
      exact ⟨hwf, Nat.le_refl _, fun a _ => rfl, by simp only [ValOk]⟩
  | fuel, .tup xs =>
      simp only [deepcopy, bind, Except.bind] at hc
      cases hdl : deepcopyList fuel xs h with
      | error e => rw [hdl] at hc; cases hc
      | ok p =>
          obtain ⟨ys, h2⟩ := p
          rw [hdl] at hc
          dsimp only at hc
          cases hc
          obtain ⟨w1, w2, w3, w4⟩ := deepcopyList_spec fuel xs h ys h' hwf hdl
          exact ⟨w1, w2, w3, by simp only [ValOk]; exact w4⟩
  | fuel, .strdict kvs =>
      simp only [deepcopy, bind, Except.bind] at hc
      cases hdl : deepcopyKVs fuel kvs h with
      | error e => rw [hdl] at hc; cases hc
      | ok p =>
          obtain ⟨ys, h2⟩ := p
          rw [hdl] at hc
          dsimp only at hc
          cases hc
          obtain ⟨w1, w2, w3, w4⟩ := deepcopyKVs_spec fuel kvs h ys h' hwf hdl
          exact ⟨w1, w2, w3, by simp only [ValOk]; exact w4⟩
  | 0, .ref a =>
      simp only [deepcopy] at hc
      cases hc
  | fuel + 1, .ref a =>
      simp only [deepcopy] at hc
      cases hla : h.lookup a with
      | none => rw [hla] at hc; cases hc
      | some obj =>
          rw [hla] at hc
          simp only [bind, Except.bind] at hc
          have hwf1 : (Heap.mk h.data (h.next + 1)).wf := by
            intro e he
            have := hwf e he
            show e.1 < h.next + 1
            omega
          cases hdl : deepcopyList fuel obj (Heap.mk h.data (h.next + 1)) with
          | error e => rw [hdl] at hc; cases hc
          | ok p =>
              obtain ⟨obj', h2⟩ := p
              rw [hdl] at hc
              dsimp only at hc
              cases hc
              obtain ⟨w1, w2, w3, w4⟩ :=
                deepcopyList_spec fuel obj (Heap.mk h.data (h.next + 1)) obj'
                  h2 hwf1 hdl
              have w2' : h.next + 1 ≤ h2.next := w2
              have hblt : h.next < h2.next := by omega
              have hag2 : ∀ c o,
                  ((Heap.mk h.data (h.next + 1)).next ≤ c ∧ c < h2.next) →
                  h2.lookup c = some o →
                  (h2.store h.next obj').lookup c = some o := by
                intro c o hPc hlo
                have hc1 : h.next + 1 ≤ c := hPc.1
                rw [Heap.lookup_store_other h2 c h.next obj' (by omega)]
                exact hlo
              refine ⟨Heap.wf_store h2 h.next obj' w1 hblt, ?_, ?_, ?_⟩
              · rw [Heap.next_store]
                omega
              · intro c hcl
                rw [Heap.lookup_store_other h2 c h.next obj' (by omega)]
                rw [w3 c (show c < h.next + 1 by omega)]
                rfl
              · simp only [ValOk]
                refine ⟨⟨Nat.le_refl _, by rw [Heap.next_store]; omega⟩,
                  obj', Heap.lookup_store_self h2 h.next obj', ?_⟩
                refine ValOkList_mono _ _ ?_ fuel (h2.store h.next obj') obj'
                  (ValOkList_transfer _ fuel h2 (h2.store h.next obj') hag2
                    obj' w4)
                intro c hc
                have hc1 : h.next + 1 ≤ c := hc.1
                exact ⟨by omega, by rw [Heap.next_store]; exact hc.2⟩
termination_by (fuel, sizeOf v)

theorem deepcopyList_spec (fuel : Nat) (xs : List PyVal) (h : Heap)
    (xs' : List PyVal) (h' : Heap) (hwf : h.wf)
    (hc : deepcopyList fuel xs h = .ok (xs', h')) :
    h'.wf ∧ h.next ≤ h'.next ∧
    (∀ a, a < h.next → h'.lookup a = h.lookup a) ∧
    ValOkList (fun a => h.next ≤ a ∧ a < h'.next) fuel h' xs' := by
  match xs with
  | [] =>
      simp only [deepcopyList] at hc
      cases hc
      exact ⟨hwf, Nat.le_refl _, fun a _ => rfl, by simp only [ValOkList]⟩
  | x :: rest =>
      simp only [deepcopyList, bind, Except.bind] at hc
      cases hd1 : deepcopy fuel x h with
      | error e => rw [hd1] at hc; cases hc
      | ok p =>
          obtain ⟨y, h1⟩ := p
          rw [hd1] at hc
          dsimp only at hc
          cases hd2 : deepcopyList fuel rest h1 with
          | error e => rw [hd2] at hc; cases hc
          | ok q =>
              obtain ⟨ys, h2⟩ := q
              rw [hd2] at hc
              dsimp only at hc
              cases hc
              obtain ⟨u1, u2, u3, u4⟩ := deepcopy_spec fuel x h y h1 hwf hd1
              obtain ⟨w1, w2, w3, w4⟩ :=
                deepcopyList_spec fuel rest h1 ys h' u1 hd2
              have hagy : ∀ c o, (h.next ≤ c ∧ c < h1.next) →
                  h1.lookup c = some o → Heap.lookup h' c = some o := by
                intro c o hPc hlo
                rw [w3 c hPc.2]
                exact hlo
              refine ⟨w1, Nat.le_trans u2 w2, ?_, ?_⟩
              · intro c hcl
                rw [w3 c (by omega), u3 c hcl]
              · simp only [ValOkList]
                constructor
                · refine ValOk_mono _ _ ?_ fuel h' y
                    (ValOk_transfer _ fuel h1 h' hagy y u4)
                  intro c hc
                  exact ⟨hc.1, by omega⟩
                · refine ValOkList_mono _ _ ?_ fuel h' ys w4
                  intro c hc
                  exact ⟨by omega, hc.2⟩
termination_by (fuel, sizeOf xs)

theorem deepcopyKVs_spec (fuel : Nat) (kvs : List (String × PyVal))
    (h : Heap) (kvs' : List (String × PyVal)) (h' : Heap) (hwf : h.wf)
    (hc : deepcopyKVs fuel kvs h = .ok (kvs', h')) :
    h'.wf ∧ h.next ≤ h'.next ∧
    (∀ a, a < h.next → h'.lookup a = h.lookup a) ∧
    ValOkKVs (fun a => h.next ≤ a ∧ a < h'.next) fuel h' kvs' := by
  match kvs with
  | [] =>
      simp only [deepcopyKVs] at hc
      cases hc
      exact ⟨hwf, Nat.le_refl _, fun a _ => rfl, by simp only [ValOkKVs]⟩
  | (k, x) :: rest =>
      simp only [deepcopyKVs, bind, Except.bind] at hc
      cases hd1 : deepcopy fuel x h with
      | error e => rw [hd1] at hc; cases hc
      | ok p =>
          obtain ⟨y, h1⟩ := p
          rw [hd1] at hc
          dsimp only at hc
          cases hd2 : deepcopyKVs fuel rest h1 with
          | error e => rw [hd2] at hc; cases hc
          | ok q =>
              obtain ⟨ys, h2⟩ := q
              rw [hd2] at hc
              dsimp only at hc
              cases hc
              obtain ⟨u1, u2, u3, u4⟩ := deepcopy_spec fuel x h y h1 hwf hd1
              obtain ⟨w1, w2, w3, w4⟩ :=
                deepcopyKVs_spec fuel rest h1 ys h' u1 hd2
              have hagy : ∀ c o, (h.next ≤ c ∧ c < h1.next) →
                  h1.lookup c = some o → Heap.lookup h' c = some o := by
                intro c o hPc hlo
                rw [w3 c hPc.2]
                exact hlo
              refine ⟨w1, Nat.le_trans u2 w2, ?_, ?_⟩
              · intro c hcl
                rw [w3 c (by omega), u3 c hcl]
              · simp only [ValOkKVs]
                constructor
                · refine ValOk_mono _ _ ?_ fuel h' y
                    (ValOk_transfer _ fuel h1 h' hagy y u4)
                  intro c hc
                  exact ⟨hc.1, by omega⟩
                · refine ValOkKVs_mono _ _ ?_ fuel h' ys w4
                  intro c hc
                  exact ⟨by omega, hc.2⟩
termination_by (fuel, sizeOf kvs)

end

theorem resolveClones_spec (fuel : Nat)
    (candidates : List (List (String × PyVal))) :
    ∀ (clone : List (String × String)) (h h' : Heap)
      (m : List (String × PyVal)), h.wf →
    resolveClones fuel candidates clone h = .ok (m, h') →
    h'.wf ∧ h.next ≤ h'.next ∧
    (∀ a, a < h.next → h'.lookup a = h.lookup a) ∧
    List.Forall₂ (fun (kv : String × String) (rv : String × PyVal) =>
      rv.1 = kv.1 ∧
        ValOk (fun a => h.next ≤ a ∧ a < h'.next) fuel h' rv.2) clone m := by
  intro clone
  induction clone with
  | nil =>
      intro h h' m hwf hc
      unfold resolveClones at hc
      cases hc
      exact ⟨hwf, Nat.le_refl _, fun a _ => rfl, List.Forall₂.nil⟩
  | cons kv rest ih =>
      intro h h' m hwf hc
      obtain ⟨k, src⟩ := kv
      unfold resolveClones at hc
      simp only [bind, Except.bind] at hc
      cases hb : resolveBinding candidates src with
      | error e => rw [hb] at hc; cases hc
      | ok v =>
          rw [hb] at hc
          dsimp only at hc
          cases hd : deepcopy fuel v h with
          | error e => rw [hd] at hc; cases hc
          | ok p =>
              obtain ⟨v1, h1⟩ := p
              rw [hd] at hc
              dsimp only at hc
              cases hr : resolveClones fuel candidates rest h1 with
              | error e => rw [hr] at hc; cases hc
              | ok q =>
                  obtain ⟨m1, h2⟩ := q
                  rw [hr] at hc
                  dsimp only at hc
                  cases hc
                  obtain ⟨u1, u2, u3, u4⟩ :=
                    deepcopy_spec fuel v h v1 h1 hwf hd
                  obtain ⟨w1, w2, w3, w4⟩ := ih h1 h' m1 u1 hr
                  have hagy : ∀ c o, (h.next ≤ c ∧ c < h1.next) →
                      h1.lookup c = some o → Heap.lookup h' c = some o := by
                    intro c o hPc hlo
                    rw [w3 c hPc.2]
                    exact hlo
                  refine ⟨w1, Nat.le_trans u2 w2, ?_, ?_⟩
                  · intro c hcl
                    rw [w3 c (by omega), u3 c hcl]
                  · refine List.Forall₂.cons ⟨rfl, ?_⟩ ?_
                    · refine ValOk_mono _ _ ?_ fuel h' v1
                        (ValOk_transfer _ fuel h1 h' hagy v1 u4)
                      intro c hcc
                      exact ⟨hcc.1, by omega⟩
                    · refine List.Forall₂.imp ?_ w4
                      intro a b hab
                      refine ⟨hab.1, ValOk_mono _ _ ?_ fuel h' b.2 hab.2⟩
                      intro c hcc
                      exact ⟨by omega, hcc.2⟩

theorem forall2_keys_eq {β : Type} (R : (String × String) → β → Prop)
    (l : List (String × String)) (m : List (String × β))
    (hf : List.Forall₂
      (fun (kv : String × String) (rv : String × β) =>
        rv.1 = kv.1 ∧ R kv rv.2) l m) :
    m.map Prod.fst = l.map Prod.fst := by
  induction hf with
  | nil => rfl
  | cons hab htail ih => simp [ih, hab.1]

theorem forall2_keys_lookup {β : Type} (R : (String × String) → β → Prop)
    (l : List (String × String)) (m : List (String × β))
    (hf : List.Forall₂
      (fun (kv : String × String) (rv : String × β) =>
        rv.1 = kv.1 ∧ R kv rv.2) l m)
    (hnd : (l.map Prod.fst).Nodup) :
    ∀ k src, (k, src) ∈ l → ∃ v', dictLookup m k = some v' ∧ R (k, src) v' := by
  induction hf with
  | nil =>
      intro k src hmem
      cases hmem
  | cons hab htail ih =>
      rename_i kv rv l' m'
      intro k src hmem
      rw [List.map_cons, List.nodup_cons] at hnd
      rcases List.mem_cons.mp hmem with rfl | hmem'
      · refine ⟨rv.2, ?_, hab.2⟩
        rw [dictLookup_cons]
        rw [if_pos (by rw [hab.1])]
      · have hk : k ∈ l'.map Prod.fst :=
          List.mem_map.mpr ⟨(k, src), hmem', rfl⟩
        have hne : rv.1 ≠ k := by
          rw [hab.1]
          intro hc
          rw [hc] at hnd
          exact hnd.1 hk
        rw [dictLookup_cons, if_neg hne]
        exact ih hnd.2 k src hmem'

theorem dictLookup_dictUnion {α : Type} (a b : List (String × α))
    (hb : (b.map Prod.fst).Nodup) (k : String) :
    dictLookup (dictUnion a b) k =
      match dictLookup b k with
      | some v => some v
      | none => dictLookup a k := by
  induction b generalizing a with
  | nil => simp [dictUnion, dictLookup_nil]
  | cons kv rest ih =>
      obtain ⟨k1, v1⟩ := kv
      rw [List.map_cons, List.nodup_cons] at hb
      have hstep : dictUnion a ((k1, v1) :: rest) =
          dictUnion (dictInsert a k1 v1) rest := rfl
      rw [hstep, ih (dictInsert a k1 v1) hb.2, dictLookup_cons]
      by_cases hk : k1 = k
      · subst hk
        have : dictLookup rest k1 = none := by
          rw [dictLookup_eq_none_iff]
          intro hmem
          exact hb.1 (by simpa [dictKeys] using hmem)
        rw [this]
        simp [dictLookup_dictInsert_self]
      · simp only [if_neg hk]
        cases hr : dictLookup rest k with
        | some v => rfl
        | none => exact dictLookup_dictInsert_other a k1 k v1 (Ne.symm hk)

/-- C6: in a successful `resolve_bindings` run over a well-formed heap,
every clone entry is bound to a value built from freshly allocated objects
only, so writing any pre-existing address — in particular any part of the
object the clone was taken from — never changes what the predicate can read
through the bound value, and, conversely, writing any address at or above
the old allocation boundary (everything the clone consists of) never
changes what can be read through any pre-existing value; and every capture
entry (not shadowed by a clone of the same name) is bound to the very value
returned by the scope scan — the same object, so any mutation is observed
identically through the binding and through the original. -/
theorem C6_clone_snapshot_capture_alias (fuel : Nat) (h : Heap)
    (hwf : h.wf) (candidates : List (List (String × PyVal)))
    (capture clone : List (String × String))
    (hndcap : (capture.map Prod.fst).Nodup)
    (hndclo : (clone.map Prod.fst).Nodup)
    (m : List (String × PyVal)) (h' : Heap)
    (hres : resolve_bindings fuel h candidates capture clone = .ok (m, h')) :
    (∀ k src, (k, src) ∈ clone →
      ∃ v', dictLookup m k = some v' ∧
        ∀ a, a < h.next → ∀ obj F,
          readVal F (h'.store a obj) v' = readVal F h' v') ∧
    (∀ v, ValOk (fun a => a < h.next) fuel h v →
      (∀ F, readVal F h' v = readVal F h v) ∧
      ∀ b, h.next ≤ b → ∀ obj F,
        readVal F (h'.store b obj) v = readVal F h' v) ∧
    (∀ k src, (k, src) ∈ capture → k ∉ clone.map Prod.fst →
      ∃ v, dictLookup m k = some v ∧
        resolveBinding candidates src = .ok v) := by
  unfold resolve_bindings at hres
  simp only [bind, Except.bind] at hres
  cases hcap : resolveCaptures candidates capture with
  | error e => rw [hcap] at hres; cases hres
  | ok referenced =>
      rw [hcap] at hres
      dsimp only at hres
      cases hclo : resolveClones fuel candidates clone h with
      | error e => rw [hclo] at hres; cases hres
      | ok p =>
          obtain ⟨cloned, h2⟩ := p
          rw [hclo] at hres
          dsimp only at hres
          cases hres
          obtain ⟨w1, w2, w3, w4⟩ :=
            resolveClones_spec fuel candidates clone h h' cloned hwf hclo
          have hkeys : cloned.map Prod.fst = clone.map Prod.fst :=
            forall2_keys_eq _ clone cloned w4
          have hndclo' : (cloned.map Prod.fst).Nodup := by
            rw [hkeys]
            exact hndclo
          refine ⟨?_, ?_, ?_⟩
          · intro k src hmem
            obtain ⟨v', hlk, hVO⟩ :=
              forall2_keys_lookup _ clone cloned w4 hndclo k src hmem
            refine ⟨v', ?_, ?_⟩
            · rw [dictLookup_dictUnion referenced cloned hndclo' k, hlk]
            · intro a hal obj F
              refine readVal_agree _ fuel h' (h'.store a obj) ?_ v' hVO F
              intro c o hPc hlo
              rw [Heap.lookup_store_other h' c a obj (by omega)]
              exact hlo
          · intro v hv
            have hag0 : ∀ c o, c < h.next → h.lookup c = some o →
                h'.lookup c = some o := by
              intro c o hcl hlo
              rw [w3 c hcl]
              exact hlo
            have hv2 : ValOk (fun a => a < h.next) fuel h' v :=
              ValOk_transfer _ fuel h h' hag0 v hv
            refine ⟨readVal_agree _ fuel h h' hag0 v hv, ?_⟩
            intro b hb obj F
            refine readVal_agree _ fuel h' (h'.store b obj) ?_ v hv2 F
            intro c o hcl hlo
            rw [Heap.lookup_store_other h' c b obj (by omega)]
            exact hlo
          · intro k src hmem hnotclone
            have hrefc := resolveCaptures_forall candidates capture
              referenced hcap
            obtain ⟨v, hlkc, hfs⟩ :=
              forall2_keys_lookup
                (fun (kv : String × String) (x : PyVal) =>
                  candidates.findSome? (fun s => dictLookup s kv.2) = some x)
                capture referenced hrefc hndcap k src hmem
            have hnone : dictLookup cloned k = none := by
              rw [dictLookup_eq_none_iff]
              intro hmemc
              apply hnotclone
              rw [← hkeys]
              exact hmemc
            refine ⟨v, ?_, ?_⟩
            · rw [dictLookup_dictUnion referenced cloned hndclo' k, hnone]
              exact hlkc
            · rw [resolveBinding_spec, hfs]

/-- C6 witness: a heap with one list object at address 0, a scope binding
`x` to it, a capture of `x` as `p` and a clone of `x` as `q`.  The clone is
bound to the fresh object at address 1; overwriting the original object at
address 0 does not change what is read through the clone; and the capture
is bound to the original reference itself. -/
theorem C6_clone_snapshot_capture_alias_witness :
    readVal 2 (Heap.store ⟨[(0, [PyVal.int 1]), (1, [PyVal.int 1])], 2⟩ 0
        [PyVal.int 99]) (PyVal.ref 1) =
      readVal 2 (⟨[(0, [PyVal.int 1]), (1, [PyVal.int 1])], 2⟩ : Heap)
        (PyVal.ref 1) ∧
    dictLookup [("p", PyVal.ref 0), ("q", PyVal.ref 1)] "p" =
      some (PyVal.ref 0) ∧
    resolveBinding [[("x", PyVal.ref 0)]] "x" = .ok (PyVal.ref 0) := by
  have hres : resolve_bindings 2 ⟨[(0, [PyVal.int 1])], 1⟩
      [[("x", PyVal.ref 0)]] [("p", "x")] [("q", "x")] =
      .ok ([("p", PyVal.ref 0), ("q", PyVal.ref 1)],
        ⟨[(0, [PyVal.int 1]), (1, [PyVal.int 1])], 2⟩) := by
    simp [resolve_bindings, resolveCaptures, resolveClones, resolveBinding,
      deepcopy, deepcopyList, dictLookup, dictUnion, dictInsert, Heap.lookup,
      Heap.store, storeData, bind, Except.bind]
  obtain ⟨A, B, C⟩ := C6_clone_snapshot_capture_alias 2
    ⟨[(0, [PyVal.int 1])], 1⟩
    (by intro e he; rw [List.mem_singleton] at he; subst he; decide)
    [[("x", PyVal.ref 0)]] [("p", "x")] [("q", "x")]
    (by decide) (by decide) _ _ hres
  obtain ⟨v', hlk, hmut⟩ := A "q" "x" (by decide)
  have hv' : v' = PyVal.ref 1 := by
    have hq : dictLookup [("p", PyVal.ref 0), ("q", PyVal.ref 1)] "q" =
        some (PyVal.ref 1) := by simp [dictLookup]
    rw [hq] at hlk
    exact (Option.some.inj hlk).symm
  subst hv'
  obtain ⟨v, hlkp, hrb⟩ := C "p" "x" (by decide) (by decide)
  have hv : v = PyVal.ref 0 := by
    have hp : dictLookup [("p", PyVal.ref 0), ("q", PyVal.ref 1)] "p" =
        some (PyVal.ref 0) := by simp [dictLookup]
    rw [hp] at hlkp
    exact (Option.some.inj hlkp).symm
  subst hv
  exact ⟨hmut 0 (by decide) [PyVal.int 99] 2, hlkp, hrb⟩

end Pactum
